import Mathlib

/-!
Verification of the stack-blur kernel in `src/jni/stackblur/stackblur.cpp`.

The C file contains:
* two 255-entry lookup tables `stackblur_mul` / `stackblur_shr`,
* `stackblur(src, w, h, radius, step)`: a one-axis pass of the stack-blur
  algorithm (step 1 = horizontal over every row, step 2 = vertical over
  every column), working in place on a flat byte buffer of `w*h` samples,
* the JNI entry `Java_com_jxtras_android_utils_ImageUtils_stackblur`,
  which unconditionally calls `stackblur` with step 1 and then step 2.

The embedding below models the byte buffer as a `List Nat`, pointers as
indices, and the C `for` loops as `forLoop` (which applies the body at
`i = 0, 1, ..., n-1` in increasing order).  All arithmetic is on `Nat`;
the C code uses `unsigned long` accumulators and never underflows or
overflows on the inputs covered by the claims (underflow-freedom is part
of the loop invariant proved below, overflow-freedom is claim C9).
A second, `Option`-valued copy of the pass (`linePassChecked` etc.)
returns `none` whenever any pixel-buffer or stack access would be out of
bounds; it is used to settle claim C10.
-/

/-- A C-style counting loop: `forLoop f n s` applies the body `f` at the
indices `0, 1, ..., n-1` in increasing order starting from state `s`. -/
def forLoop (f : Nat → σ → σ) : Nat → σ → σ
  | 0, s => s
  | m + 1, s => f m (forLoop f m s)

/-- `Option`-valued counting loop, stopping with `none` if the body fails. -/
def forLoopM (f : Nat → σ → Option σ) : Nat → σ → Option σ
  | 0, s => some s
  | m + 1, s =>
    match forLoopM f m s with
    | none => none
    | some s' => f m s'

/-- The `clamp(a,min,max)` macro of the C file. -/
def clamp (a mn mx : Nat) : Nat := if a < mn then mn else if mx < a then mx else a

/-- The 255-entry fixed-point multiplier table `stackblur_mul` of the C file. -/
def stackblur_mul : List Nat :=
[
  512, 512, 456, 512, 328, 456, 335, 512, 405, 328, 271, 456, 388, 335, 292, 512,
  454, 405, 364, 328, 298, 271, 496, 456, 420, 388, 360, 335, 312, 292, 273, 512,
  482, 454, 428, 405, 383, 364, 345, 328, 312, 298, 284, 271, 259, 496, 475, 456,
  437, 420, 404, 388, 374, 360, 347, 335, 323, 312, 302, 292, 282, 273, 265, 512,
  497, 482, 468, 454, 441, 428, 417, 405, 394, 383, 373, 364, 354, 345, 337, 328,
  320, 312, 305, 298, 291, 284, 278, 271, 265, 259, 507, 496, 485, 475, 465, 456,
  446, 437, 428, 420, 412, 404, 396, 388, 381, 374, 367, 360, 354, 347, 341, 335,
  329, 323, 318, 312, 307, 302, 297, 292, 287, 282, 278, 273, 269, 265, 261, 512,
  505, 497, 489, 482, 475, 468, 461, 454, 447, 441, 435, 428, 422, 417, 411, 405,
  399, 394, 389, 383, 378, 373, 368, 364, 359, 354, 350, 345, 341, 337, 332, 328,
  324, 320, 316, 312, 309, 305, 301, 298, 294, 291, 287, 284, 281, 278, 274, 271,
  268, 265, 262, 259, 257, 507, 501, 496, 491, 485, 480, 475, 470, 465, 460, 456,
  451, 446, 442, 437, 433, 428, 424, 420, 416, 412, 408, 404, 400, 396, 392, 388,
  385, 381, 377, 374, 370, 367, 363, 360, 357, 354, 350, 347, 344, 341, 338, 335,
  332, 329, 326, 323, 320, 318, 315, 312, 310, 307, 304, 302, 299, 297, 294, 292,
  289, 287, 285, 282, 280, 278, 275, 273, 271, 269, 267, 265, 263, 261, 259]

/-- The 255-entry shift table `stackblur_shr` of the C file. -/
def stackblur_shr : List Nat :=
[
  9, 11, 12, 13, 13, 14, 14, 15, 15, 15, 15, 16, 16, 16, 16, 17,
  17, 17, 17, 17, 17, 17, 18, 18, 18, 18, 18, 18, 18, 18, 18, 19,
  19, 19, 19, 19, 19, 19, 19, 19, 19, 19, 19, 19, 19, 20, 20, 20,
  20, 20, 20, 20, 20, 20, 20, 20, 20, 20, 20, 20, 20, 20, 20, 21,
  21, 21, 21, 21, 21, 21, 21, 21, 21, 21, 21, 21, 21, 21, 21, 21,
  21, 21, 21, 21, 21, 21, 21, 21, 21, 21, 22, 22, 22, 22, 22, 22,
  22, 22, 22, 22, 22, 22, 22, 22, 22, 22, 22, 22, 22, 22, 22, 22,
  22, 22, 22, 22, 22, 22, 22, 22, 22, 22, 22, 22, 22, 22, 22, 23,
  23, 23, 23, 23, 23, 23, 23, 23, 23, 23, 23, 23, 23, 23, 23, 23,
  23, 23, 23, 23, 23, 23, 23, 23, 23, 23, 23, 23, 23, 23, 23, 23,
  23, 23, 23, 23, 23, 23, 23, 23, 23, 23, 23, 23, 23, 23, 23, 23,
  23, 23, 23, 23, 23, 24, 24, 24, 24, 24, 24, 24, 24, 24, 24, 24,
  24, 24, 24, 24, 24, 24, 24, 24, 24, 24, 24, 24, 24, 24, 24, 24,
  24, 24, 24, 24, 24, 24, 24, 24, 24, 24, 24, 24, 24, 24, 24, 24,
  24, 24, 24, 24, 24, 24, 24, 24, 24, 24, 24, 24, 24, 24, 24, 24,
  24, 24, 24, 24, 24, 24, 24, 24, 24, 24, 24, 24, 24, 24, 24]

/-- The local state of one line (row or column) of a `stackblur` pass:
the pixel buffer, the circular `stack` of the last `2*radius+1` samples,
the three accumulators, the circular stack cursor `sp`, and the
read-ahead position `xp` (called `yp` in step 2 of the C code). -/
structure LineState where
  buf : List Nat
  stack : List Nat
  sum : Nat
  sum_in : Nat
  sum_out : Nat
  sp : Nat
  xp : Nat

/-- One iteration of the main `for (x = 0; x < w; x++)` loop of a pass
(identical code in step 1 and step 2 of the C file, with the position
`i` along the line mapped to a buffer index by `idx`, and `nm` the last
valid position (`wm` resp. `hm`)).  The destination write happens first,
in place, then the window slides one step. -/
def lineStep (idx : Nat → Nat) (nm radius mul_sum shr_sum : Nat) (x : Nat)
    (st : LineState) : LineState :=
  let div := 2 * radius + 1
  let buf1 := st.buf.set (idx x) (clamp ((st.sum * mul_sum) >>> shr_sum) 0 255)
  let sum1 := st.sum - st.sum_out
  let ss0 := st.sp + div - radius
  let stack_start := if div ≤ ss0 then ss0 - div else ss0
  let sum_out1 := st.sum_out - st.stack.getD stack_start 0
  let xp1 := if st.xp < nm then st.xp + 1 else st.xp
  let v := buf1.getD (idx xp1) 0
  let stack1 := st.stack.set stack_start v
  let sum_in1 := st.sum_in + v
  let sum2 := sum1 + sum_in1
  let sp1 := if div ≤ st.sp + 1 then 0 else st.sp + 1
  let peek := stack1.getD sp1 0
  { buf := buf1, stack := stack1, sum := sum2, sum_in := sum_in1 - peek,
    sum_out := sum_out1 + peek, sp := sp1, xp := xp1 }

/-- The body of the first initialisation loop `for (i = 0; i <= radius; i++)`
of a pass: it repeatedly reads the first sample of the line. -/
def init1Body (idx : Nat → Nat) (i : Nat) (s : LineState) : LineState :=
  let v := s.buf.getD (idx 0) 0
  { s with stack := s.stack.set i v, sum := s.sum + v * (i + 1),
           sum_out := s.sum_out + v }

/-- The first initialisation loop of a pass. -/
def lineInit1 (idx : Nat → Nat) (radius : Nat) (st : LineState) : LineState :=
  forLoop (init1Body idx) (radius + 1) st

/-- The body of the second initialisation loop `for (i = 1; i <= radius; i++)`
of a pass (`i = i0 + 1`): the read pointer `p` advances along the line but is
clamped at `nm`. -/
def init2Body (idx : Nat → Nat) (nm radius : Nat) (i0 : Nat) (sp : LineState × Nat) :
    LineState × Nat :=
  let i := i0 + 1
  let p := if i ≤ nm then sp.2 + 1 else sp.2
  let s := sp.1
  let v := s.buf.getD (idx p) 0
  ({ s with stack := s.stack.set (i + radius) v,
            sum := s.sum + v * (radius + 1 - i),
            sum_in := s.sum_in + v }, p)

/-- The second initialisation loop of a pass. -/
def lineInit2 (idx : Nat → Nat) (nm radius : Nat) (st : LineState) : LineState :=
  (forLoop (init2Body idx nm radius) radius (st, 0)).1

/-- The line state after the two initialisation loops and `x` iterations of
the main loop of a pass over one line of length `n`. -/
def lineStateAt (buf : List Nat) (idx : Nat → Nat) (n radius mul_sum shr_sum x : Nat) :
    LineState :=
  let nm := n - 1
  let st0 : LineState :=
    { buf := buf, stack := List.replicate (2 * radius + 1) 0, sum := 0,
      sum_in := 0, sum_out := 0, sp := radius, xp := min radius nm }
  forLoop (lineStep idx nm radius mul_sum shr_sum) x
    (lineInit2 idx nm radius (lineInit1 idx radius st0))

/-- One complete line (row or column) of a `stackblur` pass: the pixel
buffer after the full main loop. -/
def linePass (buf : List Nat) (idx : Nat → Nat) (n radius mul_sum shr_sum : Nat) :
    List Nat :=
  (lineStateAt buf idx n radius mul_sum shr_sum n).buf

/-- The C function `stackblur(src, w, h, radius, step)`: step 1 runs the
line pass over every row (position `i` of row `y` lives at `y*w + i`),
step 2 over every column (position `i` of column `x` lives at `x + i*w`),
any other `step` does nothing. -/
def stackblur (src : List Nat) (w h radius stp : Nat) : List Nat :=
  let mul_sum := stackblur_mul.getD radius 0
  let shr_sum := stackblur_shr.getD radius 0
  if stp = 1 then
    forLoop (fun y buf => linePass buf (fun i => y * w + i) w radius mul_sum shr_sum) h src
  else if stp = 2 then
    forLoop (fun x buf => linePass buf (fun i => x + i * w) h radius mul_sum shr_sum) w src
  else src

/-- The JNI entry point: it performs no validation whatsoever and
unconditionally runs step 1 and then step 2 on the caller's buffer. -/
def Java_com_jxtras_android_utils_ImageUtils_stackblur
    (src : List Nat) (width height radius : Nat) : List Nat :=
  stackblur (stackblur src width height radius 1) width height radius 2

/-! ## Specification-side definitions

The direct (non-sliding-window) description of what one pass computes:
position `x` of a line receives the clamped, table-scaled tent-weighted
sum of the original line, with edge-clamped sampling. -/

/-- Edge-clamped sample of the line `idx` of a buffer: position `q` along
the line, clamped to the last valid position `nm`. -/
def pixE (buf : List Nat) (idx : Nat → Nat) (nm q : Nat) : Nat :=
  buf.getD (idx (min q nm)) 0

/-- The tent (triangular) weight of offset `j ∈ [0, 2*radius]` of the
window: `radius + 1 - |j - radius|`, peaking at the window centre. -/
def tentW (radius j : Nat) : Nat :=
  if j ≤ radius then j + 1 else 2 * radius + 1 - j

/-- The tent-weighted, edge-clamped window sum at position `x` of a line:
`∑_{k=-radius}^{radius} (radius+1-|k|) * line[clamp(x+k, 0, nm)]`,
written with `j = k + radius ∈ [0, 2*radius]`. -/
def tentSum (buf : List Nat) (idx : Nat → Nat) (nm radius x : Nat) : Nat :=
  ∑ j ∈ Finset.range (2 * radius + 1), tentW radius j * pixE buf idx nm (x + j - radius)

/-- The value of the `sum_out` accumulator at position `x`: the samples of
the left (outgoing) half of the window, centre included. -/
def sumOutA (buf : List Nat) (idx : Nat → Nat) (nm radius x : Nat) : Nat :=
  ∑ m ∈ Finset.range (radius + 1), pixE buf idx nm (x + m - radius)

/-- The value of the `sum_in` accumulator at position `x`: the samples of
the right (incoming) half of the window, centre excluded. -/
def sumInB (buf : List Nat) (idx : Nat → Nat) (nm radius x : Nat) : Nat :=
  ∑ k ∈ Finset.range radius, pixE buf idx nm (x + 1 + k)

/-- The output sample a pass writes at position `x` of a line. -/
def outVal (buf : List Nat) (idx : Nat → Nat) (nm radius mul_sum shr_sum x : Nat) : Nat :=
  clamp ((tentSum buf idx nm radius x * mul_sum) >>> shr_sum) 0 255

/-- The loop invariant of the main loop of a pass, at the start of
iteration `x`: positions `< x` hold their outputs, positions `≥ x` (and
positions off the line) are untouched, the accumulators hold the
tent-weighted sum and the two half-window sums at `x`, the two cursors
are where the C code puts them, and the circular stack holds the window
`[x - radius, x + radius]` (edge-clamped) of the original line. -/
def InvLine (buf0 : List Nat) (idx : Nat → Nat) (nm radius mul_sum shr_sum x : Nat)
    (S : LineState) : Prop :=
  S.buf.length = buf0.length ∧
  S.stack.length = 2 * radius + 1 ∧
  (∀ t, t ≤ nm → x ≤ t → S.buf.getD (idx t) 0 = buf0.getD (idx t) 0) ∧
  (∀ t, t < x → S.buf.getD (idx t) 0 = outVal buf0 idx nm radius mul_sum shr_sum t) ∧
  (∀ p, (∀ i, i ≤ nm → idx i ≠ p) → S.buf.getD p 0 = buf0.getD p 0) ∧
  S.sum = tentSum buf0 idx nm radius x ∧
  S.sum_in = sumInB buf0 idx nm radius x ∧
  S.sum_out = sumOutA buf0 idx nm radius x ∧
  S.sp = (radius + x) % (2 * radius + 1) ∧
  S.xp = min (radius + x) nm ∧
  (∀ j, j < 2 * radius + 1 →
    S.stack.getD ((x + j) % (2 * radius + 1)) 0 = pixE buf0 idx nm (x + j - radius))

/-! ## List helper lemmas -/

lemma getD_set_self (l : List Nat) (i v : Nat) (h : i < l.length) :
    (l.set i v).getD i 0 = v := by
  simp [List.getD_eq_getElem, h, List.length_set]

lemma getD_set_ne (l : List Nat) {i j : Nat} (v : Nat) (h : i ≠ j) :
    (l.set i v).getD j 0 = l.getD j 0 := by
  simp [List.getD, List.getElem?_set_ne h]

lemma getD_replicate {n i : Nat} (v : Nat) (h : i < n) :
    (List.replicate n v).getD i 0 = v := by
  simp [List.getD_eq_getElem, h]

lemma list_ext_getD (l1 l2 : List Nat) (hlen : l1.length = l2.length)
    (h : ∀ p, p < l1.length → l1.getD p 0 = l2.getD p 0) : l1 = l2 := by
  apply List.ext_get hlen
  intro n h1 h2
  have hg := h n h1
  rw [List.getD_eq_getElem l1 0 h1, List.getD_eq_getElem l2 0 h2] at hg
  simpa using hg

/-! ## Sum helper lemmas -/

lemma sum_range_split (f : Nat → Nat) (a b : Nat) :
    ∑ j ∈ Finset.range (a + b), f j
      = (∑ j ∈ Finset.range a, f j) + ∑ i ∈ Finset.range b, f (a + i) := by
  induction b with
  | zero => simp
  | succ b ih => rw [← Nat.add_assoc, Finset.sum_range_succ, ih, Finset.sum_range_succ,
      Nat.add_assoc]

/-- Every tent weight inside the window is at least `1`. -/
lemma tentW_pos (radius j : Nat) (h : j < 2 * radius + 1) : 1 ≤ tentW radius j := by
  unfold tentW
  split <;> omega

/-- The total tent weight of a window of radius `r` is `(r+1)^2`. -/
lemma tentW_total (r : Nat) :
    ∑ j ∈ Finset.range (2 * r + 1), tentW r j = (r + 1) ^ 2 := by
  have hsplit := sum_range_split (tentW r) (r + 1) r
  have h1 : ∀ j ∈ Finset.range (r + 1), tentW r j = j + 1 := by
    intro j hj
    simp only [Finset.mem_range] at hj
    unfold tentW
    rw [if_pos (by omega)]
  have h2 : ∀ i ∈ Finset.range r, tentW r (r + 1 + i) = r - i := by
    intro i hi
    simp only [Finset.mem_range] at hi
    unfold tentW
    rw [if_neg (by omega)]
    omega
  rw [show 2 * r + 1 = (r + 1) + r by omega] at *
  rw [hsplit, Finset.sum_congr rfl h1, Finset.sum_congr rfl h2]
  have g1 : ∑ j ∈ Finset.range (r + 1), (j + 1) = ∑ j ∈ Finset.range (r + 2), j := by
    rw [Finset.sum_range_succ' (fun j => j) (r + 1)]
    simp
  have g2 : ∑ i ∈ Finset.range r, (r - i) = ∑ i ∈ Finset.range r, (i + 1) := by
    rw [← Finset.sum_range_reflect]
    apply Finset.sum_congr rfl
    intro i hi
    simp only [Finset.mem_range] at hi
    omega
  have e1 : (∑ j ∈ Finset.range (r + 2), j) * 2 = (r + 2) * (r + 1) :=
    Finset.sum_range_id_mul_two (r + 2)
  have e2 : (∑ j ∈ Finset.range (r + 1), j) * 2 = (r + 1) * r :=
    Finset.sum_range_id_mul_two (r + 1)
  have g3 : ∑ i ∈ Finset.range r, (i + 1) = ∑ j ∈ Finset.range (r + 1), j := by
    rw [Finset.sum_range_succ' (fun j => j) r]
    simp
  rw [g1, g2, g3]
  have h2 : 2 * ((∑ j ∈ Finset.range (r + 2), j) + ∑ j ∈ Finset.range (r + 1), j)
      = 2 * (r + 1) ^ 2 := by
    calc 2 * ((∑ j ∈ Finset.range (r + 2), j) + ∑ j ∈ Finset.range (r + 1), j)
        = (∑ j ∈ Finset.range (r + 2), j) * 2 + (∑ j ∈ Finset.range (r + 1), j) * 2 := by
          ring
      _ = (r + 2) * (r + 1) + (r + 1) * r := by rw [e1, e2]
      _ = 2 * (r + 1) ^ 2 := by ring
  exact Nat.eq_of_mul_eq_mul_left (by norm_num) h2

/-- Sliding the outgoing half-window one step: peeling the oldest sample
and appending the new centre. -/
lemma sumOut_rec (f : Nat → Nat) (r : Nat) :
    (∑ m ∈ Finset.range (r + 1), f (m + 1)) + f 0
      = (∑ m ∈ Finset.range (r + 1), f m) + f (r + 1) := by
  have h1 := Finset.sum_range_succ' f (r + 1)
  have h2 := Finset.sum_range_succ f (r + 1)
  omega

/-- Sliding the incoming half-window one step: appending the newly read
sample and removing the new centre. -/
lemma sumIn_rec (f : Nat → Nat) (r : Nat) :
    (∑ k ∈ Finset.range r, f (r + 1 + k)) + f (2 * r + 1)
      = f (r + 1) + ∑ k ∈ Finset.range r, f (r + 2 + k) := by
  have h1 := Finset.sum_range_succ (fun k => f (r + 1 + k)) r
  have h2 := Finset.sum_range_succ' (fun k => f (r + 1 + k)) r
  have e1 : f (r + 1 + r) = f (2 * r + 1) := by
    rw [show r + 1 + r = 2 * r + 1 from by omega]
  have e2 : (∑ k ∈ Finset.range r, f (r + 1 + (k + 1))) = ∑ k ∈ Finset.range r, f (r + 2 + k) := by
    apply Finset.sum_congr rfl
    intro k _
    rw [show r + 1 + (k + 1) = r + 2 + k from by omega]
  have e3 : f (r + 1 + 0) = f (r + 1) := by rw [Nat.add_zero]
  rw [e1] at h1
  rw [e2, e3] at h2
  omega

/-- Sliding the full tent-weighted window one step: the tent sum at the
next position equals the tent sum at the current position, minus the
outgoing half (centre included), plus the incoming half extended by the
newly read sample. -/
lemma tent_rec (f : Nat → Nat) (r : Nat) :
    (∑ j ∈ Finset.range (2 * r + 1), tentW r j * f (j + 1)) + ∑ m ∈ Finset.range (r + 1), f m
      = (∑ j ∈ Finset.range (2 * r + 1), tentW r j * f j)
          + ∑ k ∈ Finset.range (r + 1), f (r + 1 + k) := by
  have e2r1 : 2 * r + 1 = (r + 1) + r := by omega
  rw [e2r1, sum_range_split (fun j => tentW r j * f (j + 1)) (r + 1) r,
      sum_range_split (fun j => tentW r j * f j) (r + 1) r]
  have wlo : ∀ g : Nat → Nat, (∑ j ∈ Finset.range (r + 1), tentW r j * g j)
      = ∑ j ∈ Finset.range (r + 1), (j + 1) * g j := by
    intro g
    apply Finset.sum_congr rfl
    intro j hj
    simp only [Finset.mem_range] at hj
    unfold tentW
    rw [if_pos (by omega)]
  have whi : ∀ g : Nat → Nat, (∑ i ∈ Finset.range r, tentW r (r + 1 + i) * g i)
      = ∑ i ∈ Finset.range r, (r - i) * g i := by
    intro g
    apply Finset.sum_congr rfl
    intro i hi
    simp only [Finset.mem_range] at hi
    unfold tentW
    rw [if_neg (by omega), show 2 * r + 1 - (r + 1 + i) = r - i from by omega]
  rw [wlo (fun j => f (j + 1)), wlo f, whi (fun i => f (r + 1 + i + 1)), whi (fun i => f (r + 1 + i))]
  -- S1 = Σ_{j<r+1} (j+1) f (j+1) rewritten through Σ_{j<r+2} j f j
  have hS1a := Finset.sum_range_succ' (fun j => j * f j) (r + 1)
  have hS1b := Finset.sum_range_succ (fun j => j * f j) (r + 1)
  simp only [Nat.zero_mul, Nat.add_zero] at hS1a
  have hS1 : (∑ j ∈ Finset.range (r + 1), (j + 1) * f (j + 1))
      = (∑ j ∈ Finset.range (r + 1), j * f j) + (r + 1) * f (r + 1) := by omega
  -- S3 = Σ_{j<r+1} (j+1) f j split into weighted + plain sums
  have hS3 : (∑ j ∈ Finset.range (r + 1), (j + 1) * f j)
      = (∑ j ∈ Finset.range (r + 1), j * f j) + ∑ j ∈ Finset.range (r + 1), f j := by
    rw [← Finset.sum_add_distrib]
    apply Finset.sum_congr rfl
    intro j _
    ring
  -- S2: reflect the decreasing-coefficient sum
  have hS2 : (∑ i ∈ Finset.range r, (r - i) * f (r + 1 + i + 1))
      = ∑ i ∈ Finset.range r, (i + 1) * f (2 * r + 1 - i) := by
    rw [← Finset.sum_range_reflect (fun i => (i + 1) * f (2 * r + 1 - i)) r]
    apply Finset.sum_congr rfl
    intro i hi
    simp only [Finset.mem_range] at hi
    rw [show r - 1 - i + 1 = r - i from by omega,
        show 2 * r + 1 - (r - 1 - i) = r + 1 + i + 1 from by omega]
  -- S4: reflect, then view as the i-weighted sum over one more index
  have hS4 : (∑ i ∈ Finset.range r, (r - i) * f (r + 1 + i))
      = ∑ i ∈ Finset.range (r + 1), i * f (2 * r + 1 - i) := by
    have refl4 : (∑ i ∈ Finset.range r, (r - i) * f (r + 1 + i))
        = ∑ i ∈ Finset.range r, (i + 1) * f (2 * r - i) := by
      rw [← Finset.sum_range_reflect (fun i => (i + 1) * f (2 * r - i)) r]
      apply Finset.sum_congr rfl
      intro i hi
      simp only [Finset.mem_range] at hi
      rw [show r - 1 - i + 1 = r - i from by omega,
          show 2 * r - (r - 1 - i) = r + 1 + i from by omega]
    have peel : (∑ i ∈ Finset.range (r + 1), i * f (2 * r + 1 - i))
        = ∑ i ∈ Finset.range r, (i + 1) * f (2 * r - i) := by
      rw [Finset.sum_range_succ' (fun i => i * f (2 * r + 1 - i)) r]
      simp only [Nat.zero_mul, Nat.add_zero]
      apply Finset.sum_congr rfl
      intro i _
      rw [show 2 * r + 1 - (i + 1) = 2 * r - i from by omega]
    rw [refl4, peel]
  -- the trailing plain sum: reflect
  have hS5 : (∑ k ∈ Finset.range (r + 1), f (r + 1 + k))
      = ∑ k ∈ Finset.range (r + 1), f (2 * r + 1 - k) := by
    rw [← Finset.sum_range_reflect (fun k => f (2 * r + 1 - k)) (r + 1)]
    apply Finset.sum_congr rfl
    intro k hk
    simp only [Finset.mem_range] at hk
    rw [show 2 * r + 1 - (r + 1 - 1 - k) = r + 1 + k from by omega]
  -- recombine the i-weighted and plain reflected sums
  have hS6 : (∑ i ∈ Finset.range (r + 1), i * f (2 * r + 1 - i))
        + (∑ k ∈ Finset.range (r + 1), f (2 * r + 1 - k))
      = ∑ i ∈ Finset.range (r + 1), (i + 1) * f (2 * r + 1 - i) := by
    rw [← Finset.sum_add_distrib]
    apply Finset.sum_congr rfl
    intro i _
    ring
  have hS7 : (∑ i ∈ Finset.range (r + 1), (i + 1) * f (2 * r + 1 - i))
      = (∑ i ∈ Finset.range r, (i + 1) * f (2 * r + 1 - i)) + (r + 1) * f (r + 1) := by
    rw [Finset.sum_range_succ (fun i => (i + 1) * f (2 * r + 1 - i)) r,
        show 2 * r + 1 - r = r + 1 from by omega]
  omega

/-! ## Initialisation: closed forms -/

/-- Closed form for `m` iterations of the first initialisation loop. -/
lemma init1_loop_spec (idx : Nat → Nat) (st : LineState) :
    ∀ m, m ≤ st.stack.length →
      (forLoop (init1Body idx) m st).buf = st.buf ∧
      (forLoop (init1Body idx) m st).sp = st.sp ∧
      (forLoop (init1Body idx) m st).xp = st.xp ∧
      (forLoop (init1Body idx) m st).sum_in = st.sum_in ∧
      (forLoop (init1Body idx) m st).stack.length = st.stack.length ∧
      (forLoop (init1Body idx) m st).sum
        = st.sum + ∑ i ∈ Finset.range m, st.buf.getD (idx 0) 0 * (i + 1) ∧
      (forLoop (init1Body idx) m st).sum_out = st.sum_out + m * st.buf.getD (idx 0) 0 ∧
      (∀ j, (forLoop (init1Body idx) m st).stack.getD j 0
        = if j < m then st.buf.getD (idx 0) 0 else st.stack.getD j 0) := by
  intro m
  induction m with
  | zero =>
    intro _
    simp [forLoop]
  | succ m ih =>
    intro hm
    obtain ⟨hbuf, hsp, hxp, hsin, hslen, hsum, hsout, hstack⟩ := ih (by omega)
    have hstep : forLoop (init1Body idx) (m + 1) st
        = init1Body idx m (forLoop (init1Body idx) m st) := rfl
    rw [hstep]
    generalize hG : forLoop (init1Body idx) m st = F at hbuf hsp hxp hsin hslen hsum hsout hstack
    simp only [init1Body]
    rw [hbuf]
    refine ⟨rfl, hsp, hxp, hsin, ?_, ?_, ?_, ?_⟩
    · rw [List.length_set]
      exact hslen
    · rw [hsum, Finset.sum_range_succ]
      ring
    · rw [hsout]
      ring
    · intro j
      by_cases hj : j = m
      · subst hj
        rw [getD_set_self _ _ _ (by omega), if_pos (by omega)]
      · rw [getD_set_ne _ _ (fun he => hj he.symm), hstack j]
        by_cases hjm : j < m
        · rw [if_pos hjm, if_pos (by omega)]
        · rw [if_neg hjm, if_neg (by omega)]

/-- Closed form for `m` iterations of the second initialisation loop,
including the clamped read pointer `p = min m nm`. -/
lemma init2_loop_spec (idx : Nat → Nat) (nm radius : Nat) (st : LineState)
    (hlen : st.stack.length = 2 * radius + 1) :
    ∀ m, m ≤ radius →
      (forLoop (init2Body idx nm radius) m (st, 0)).2 = min m nm ∧
      (forLoop (init2Body idx nm radius) m (st, 0)).1.buf = st.buf ∧
      (forLoop (init2Body idx nm radius) m (st, 0)).1.sp = st.sp ∧
      (forLoop (init2Body idx nm radius) m (st, 0)).1.xp = st.xp ∧
      (forLoop (init2Body idx nm radius) m (st, 0)).1.sum_out = st.sum_out ∧
      (forLoop (init2Body idx nm radius) m (st, 0)).1.stack.length = st.stack.length ∧
      (forLoop (init2Body idx nm radius) m (st, 0)).1.sum
        = st.sum + ∑ i0 ∈ Finset.range m, pixE st.buf idx nm (i0 + 1) * (radius - i0) ∧
      (forLoop (init2Body idx nm radius) m (st, 0)).1.sum_in
        = st.sum_in + ∑ i0 ∈ Finset.range m, pixE st.buf idx nm (i0 + 1) ∧
      (∀ j, (forLoop (init2Body idx nm radius) m (st, 0)).1.stack.getD j 0
        = if radius + 1 ≤ j ∧ j < radius + 1 + m then pixE st.buf idx nm (j - radius)
          else st.stack.getD j 0) := by
  intro m
  induction m with
  | zero =>
    intro _
    refine ⟨by simp [forLoop], rfl, rfl, rfl, rfl, rfl, by simp [forLoop], by simp [forLoop], ?_⟩
    intro j
    rw [if_neg (by omega)]
    rfl
  | succ m ih =>
    intro hm
    obtain ⟨hp, hbuf, hsp, hxp, hsout, hslen, hsum, hsin, hstack⟩ := ih (by omega)
    have hstep : forLoop (init2Body idx nm radius) (m + 1) (st, 0)
        = init2Body idx nm radius m (forLoop (init2Body idx nm radius) m (st, 0)) := rfl
    rw [hstep]
    generalize hG : forLoop (init2Body idx nm radius) m (st, 0) = F
      at hp hbuf hsp hxp hsout hslen hsum hsin hstack
    simp only [init2Body]
    rw [hp]
    have hpnew : (if m + 1 ≤ nm then min m nm + 1 else min m nm) = min (m + 1) nm := by
      split <;> omega
    rw [hpnew, hbuf]
    have hv : st.buf.getD (idx (min (m + 1) nm)) 0 = pixE st.buf idx nm (m + 1) := rfl
    rw [hv]
    refine ⟨rfl, rfl, hsp, hxp, hsout, ?_, ?_, ?_, ?_⟩
    · rw [List.length_set]
      exact hslen
    · rw [hsum, Finset.sum_range_succ,
        show radius + 1 - (m + 1) = radius - m from by omega]
      ring
    · rw [hsin, Finset.sum_range_succ]
      ring
    · intro j
      by_cases hj : j = m + 1 + radius
      · subst hj
        rw [getD_set_self _ _ _ (by omega), if_pos (by omega),
          show m + 1 + radius - radius = m + 1 from by omega]
      · rw [getD_set_ne _ _ (fun he => hj he.symm), hstack j]
        by_cases hjm : radius + 1 ≤ j ∧ j < radius + 1 + m
        · rw [if_pos hjm, if_pos (by omega)]
        · rw [if_neg hjm, if_neg (by omega)]

/-- After the two initialisation loops, the main-loop invariant holds at
position `x = 0`. -/
lemma invLine_zero (buf : List Nat) (idx : Nat → Nat) (n radius mul_sum shr_sum : Nat) :
    InvLine buf idx (n - 1) radius mul_sum shr_sum 0
      (lineStateAt buf idx n radius mul_sum shr_sum 0) := by
  have h0 : lineStateAt buf idx n radius mul_sum shr_sum 0
      = lineInit2 idx (n - 1) radius (lineInit1 idx radius
          ⟨buf, List.replicate (2 * radius + 1) 0, 0, 0, 0, radius, min radius (n - 1)⟩) := rfl
  set st0 : LineState :=
    ⟨buf, List.replicate (2 * radius + 1) 0, 0, 0, 0, radius, min radius (n - 1)⟩ with hst0
  obtain ⟨h1buf, h1sp, h1xp, h1sin, h1slen, h1sum, h1sout, h1stack⟩ :=
    init1_loop_spec idx st0 (radius + 1) (by simp [hst0]; omega)
  set A : LineState := forLoop (init1Body idx) (radius + 1) st0 with hA
  have hA1 : lineInit1 idx radius st0 = A := rfl
  obtain ⟨h2p, h2buf, h2sp, h2xp, h2sout, h2slen, h2sum, h2sin, h2stack⟩ :=
    init2_loop_spec idx (n - 1) radius A (by rw [h1slen]; simp [hst0]) radius (le_refl radius)
  set B : LineState := (forLoop (init2Body idx (n - 1) radius) radius (A, 0)).1 with hB
  have hB1 : lineStateAt buf idx n radius mul_sum shr_sum 0 = B := by
    rw [h0, hA1]
    rfl
  rw [hB1]
  have hAbuf : A.buf = buf := h1buf
  have hv0 : ∀ m ∈ Finset.range (radius + 1),
      tentW radius m * pixE buf idx (n - 1) (0 + m - radius)
        = buf.getD (idx 0) 0 * (m + 1) := by
    intro m hm
    simp only [Finset.mem_range] at hm
    unfold tentW
    rw [if_pos (by omega)]
    have : pixE buf idx (n - 1) (0 + m - radius) = buf.getD (idx 0) 0 := by
      unfold pixE
      rw [show 0 + m - radius = 0 from by omega]
      simp
    rw [this]
    ring
  have hvhi : ∀ i ∈ Finset.range radius,
      tentW radius (radius + 1 + i) * pixE buf idx (n - 1) (0 + (radius + 1 + i) - radius)
        = pixE buf idx (n - 1) (i + 1) * (radius - i) := by
    intro i hi
    simp only [Finset.mem_range] at hi
    unfold tentW
    rw [if_neg (by omega), show 2 * radius + 1 - (radius + 1 + i) = radius - i from by omega,
      show 0 + (radius + 1 + i) - radius = i + 1 from by omega]
    ring
  refine ⟨?_, ?_, ?_, ?_, ?_, ?_, ?_, ?_, ?_, ?_, ?_⟩
  · rw [h2buf, hAbuf]
  · rw [h2slen, h1slen]
    simp [hst0]
  · intro t _ _
    rw [h2buf, hAbuf]
  · intro t ht
    omega
  · intro p _
    rw [h2buf, hAbuf]
  · rw [h2sum, h1sum, hAbuf]
    unfold tentSum
    rw [show 2 * radius + 1 = (radius + 1) + radius from by omega,
        sum_range_split (fun j => tentW radius j * pixE buf idx (n - 1) (0 + j - radius))
          (radius + 1) radius,
        Finset.sum_congr rfl hv0, Finset.sum_congr rfl hvhi]
    simp [hst0]
  · rw [h2sin, h1sin, hAbuf]
    unfold sumInB
    have : ∀ k ∈ Finset.range radius,
        pixE buf idx (n - 1) (0 + 1 + k) = pixE buf idx (n - 1) (k + 1) := by
      intro k _
      rw [show 0 + 1 + k = k + 1 from by omega]
    rw [Finset.sum_congr rfl this]
    simp [hst0]
  · rw [h2sout, h1sout]
    unfold sumOutA
    have hterm : ∀ m ∈ Finset.range (radius + 1),
        pixE buf idx (n - 1) (0 + m - radius) = buf.getD (idx 0) 0 := by
      intro m hm
      simp only [Finset.mem_range] at hm
      unfold pixE
      rw [show 0 + m - radius = 0 from by omega]
      simp
    rw [Finset.sum_congr rfl hterm, Finset.sum_const, Finset.card_range, smul_eq_mul]
    simp [hst0]
  · rw [h2sp, h1sp]
    simp only [hst0, Nat.add_zero]
    exact (Nat.mod_eq_of_lt (by omega)).symm
  · rw [h2xp, h1xp]
    simp [hst0]
  · intro j hj
    rw [Nat.zero_add, Nat.mod_eq_of_lt hj, h2stack j]
    by_cases hcase : radius + 1 ≤ j
    · rw [if_pos ⟨hcase, by omega⟩, hAbuf]
    · rw [if_neg (by omega), h1stack j, if_pos (by omega)]
      unfold pixE
      rw [show j - radius = 0 from by omega]
      simp [hst0]

/-- The conditional wrap-around `if (a >= d) a -= d` equals `a % d` when
`a < 2*d`. -/
lemma wrap_sub (a d : Nat) (hd : 0 < d) (h2 : a < 2 * d) :
    (if d ≤ a then a - d else a) = a % d := by
  by_cases hc : d ≤ a
  · rw [if_pos hc, Nat.mod_eq_sub_mod hc, Nat.mod_eq_of_lt (by omega)]
  · rw [if_neg hc, Nat.mod_eq_of_lt (by omega)]

/-- The conditional increment-and-reset `++sp; if (sp >= d) sp = 0` equals
incrementing modulo `d`. -/
lemma succ_mod (a d : Nat) (hd : 0 < d) :
    (if d ≤ a % d + 1 then 0 else a % d + 1) = (a + 1) % d := by
  have h1 : a % d < d := Nat.mod_lt _ hd
  have h2 : (a % d + 1) % d = (a + 1) % d := Nat.mod_add_mod a d 1
  by_cases hc : d ≤ a % d + 1
  · rw [if_pos hc, ← h2, show a % d + 1 = d from by omega, Nat.mod_self]
  · rw [if_neg hc, ← h2, Nat.mod_eq_of_lt (show a % d + 1 < d from by omega)]

/-- The outgoing half-window sum never exceeds the full tent-weighted sum
(each sample carries tent weight at least one). -/
lemma sumOutA_le_tentSum (buf : List Nat) (idx : Nat → Nat) (nm radius x : Nat) :
    sumOutA buf idx nm radius x ≤ tentSum buf idx nm radius x := by
  unfold sumOutA tentSum
  calc ∑ m ∈ Finset.range (radius + 1), pixE buf idx nm (x + m - radius)
      ≤ ∑ m ∈ Finset.range (radius + 1), tentW radius m * pixE buf idx nm (x + m - radius) := by
        apply Finset.sum_le_sum
        intro m hm
        simp only [Finset.mem_range] at hm
        have := tentW_pos radius m (by omega)
        exact Nat.le_mul_of_pos_left _ (by omega)
    _ ≤ ∑ j ∈ Finset.range (2 * radius + 1), tentW radius j * pixE buf idx nm (x + j - radius) := by
        apply Finset.sum_le_sum_of_subset
        apply Finset.range_subset.mpr
        omega

/-- Maintenance of the main-loop invariant: one `lineStep` advances the
invariant from position `x` to `x + 1`, for `x < nm`.  (At the very last
iteration `x = nm` the slide would re-read the just-written output sample,
but that final successor state is never consumed.) -/
lemma invLine_step (buf0 : List Nat) (idx : Nat → Nat) (nm radius mul_sum shr_sum x : Nat)
    (S : LineState)
    (hidx : ∀ i, i ≤ nm → idx i < buf0.length)
    (hinj : ∀ i j, i ≤ nm → j ≤ nm → idx i = idx j → i = j)
    (hx : x < nm)
    (h : InvLine buf0 idx nm radius mul_sum shr_sum x S) :
    InvLine buf0 idx nm radius mul_sum shr_sum (x + 1)
      (lineStep idx nm radius mul_sum shr_sum x S) := by
  obtain ⟨hlen, hslen, hun, hout, hoff, hsum, hsin, hsout, hsp, hxp, hstack⟩ := h
  have hdiv : 0 < 2 * radius + 1 := by omega
  have hsplt : S.sp < 2 * radius + 1 := by rw [hsp]; exact Nat.mod_lt _ hdiv
  -- the wrapped oldest-slot index equals x % div
  have hssx : (if 2 * radius + 1 ≤ S.sp + (2 * radius + 1) - radius
      then S.sp + (2 * radius + 1) - radius - (2 * radius + 1)
      else S.sp + (2 * radius + 1) - radius) = x % (2 * radius + 1) := by
    rw [show S.sp + (2 * radius + 1) - radius = S.sp + (radius + 1) from by omega,
      wrap_sub _ _ hdiv (by omega), hsp, Nat.mod_add_mod,
      show radius + x + (radius + 1) = x + (2 * radius + 1) from by omega,
      Nat.add_mod_right]
  -- the advanced read position
  have hxp1 : (if S.xp < nm then S.xp + 1 else S.xp) = min (radius + (x + 1)) nm := by
    rw [hxp]
    split <;> omega
  -- the advanced stack cursor
  have hsp1 : (if 2 * radius + 1 ≤ S.sp + 1 then 0 else S.sp + 1)
      = (radius + (x + 1)) % (2 * radius + 1) := by
    rw [hsp, succ_mod _ _ hdiv, show radius + x + 1 = radius + (x + 1) from by omega]
  -- the outgoing (oldest) sample sitting at the wrapped slot
  have hstk0 : S.stack.getD (x % (2 * radius + 1)) 0 = pixE buf0 idx nm (x - radius) := by
    have h0 := hstack 0 (by omega)
    rwa [Nat.add_zero] at h0
  -- the value read after advancing: still the original buffer (read ahead of write)
  have hvx : (S.buf.set (idx x) (clamp ((S.sum * mul_sum) >>> shr_sum) 0 255)).getD
      (idx (min (radius + (x + 1)) nm)) 0
      = pixE buf0 idx nm (x + (2 * radius + 1) - radius) := by
    have hle : min (radius + (x + 1)) nm ≤ nm := by omega
    have hne : idx x ≠ idx (min (radius + (x + 1)) nm) := by
      intro he
      have := hinj _ _ (by omega) hle he
      omega
    rw [getD_set_ne _ _ hne, hun _ hle (by omega),
      show x + (2 * radius + 1) - radius = radius + (x + 1) from by omega]
    rfl
  -- one step in explicit form
  have hT : lineStep idx nm radius mul_sum shr_sum x S =
      { buf := S.buf.set (idx x) (clamp ((S.sum * mul_sum) >>> shr_sum) 0 255),
        stack := S.stack.set (x % (2 * radius + 1))
          (pixE buf0 idx nm (x + (2 * radius + 1) - radius)),
        sum := S.sum - S.sum_out
          + (S.sum_in + pixE buf0 idx nm (x + (2 * radius + 1) - radius)),
        sum_in := S.sum_in + pixE buf0 idx nm (x + (2 * radius + 1) - radius)
          - (S.stack.set (x % (2 * radius + 1))
              (pixE buf0 idx nm (x + (2 * radius + 1) - radius))).getD
              ((radius + (x + 1)) % (2 * radius + 1)) 0,
        sum_out := S.sum_out - pixE buf0 idx nm (x - radius)
          + (S.stack.set (x % (2 * radius + 1))
              (pixE buf0 idx nm (x + (2 * radius + 1) - radius))).getD
              ((radius + (x + 1)) % (2 * radius + 1)) 0,
        sp := (radius + (x + 1)) % (2 * radius + 1),
        xp := min (radius + (x + 1)) nm } := by
    simp only [lineStep]
    rw [hssx, hxp1, hsp1, hstk0, hvx]
  -- the slid circular stack again holds the window around the next centre
  have hstack1 : ∀ j, j < 2 * radius + 1 →
      (S.stack.set (x % (2 * radius + 1))
          (pixE buf0 idx nm (x + (2 * radius + 1) - radius))).getD
        ((x + 1 + j) % (2 * radius + 1)) 0 = pixE buf0 idx nm (x + 1 + j - radius) := by
    intro j hj
    by_cases hj2 : j = 2 * radius
    · subst hj2
      rw [show x + 1 + 2 * radius = x + (2 * radius + 1) from by omega, Nat.add_mod_right,
        getD_set_self _ _ _ (by rw [hslen]; exact Nat.mod_lt _ hdiv)]
    · have hne2 : x % (2 * radius + 1) ≠ (x + 1 + j) % (2 * radius + 1) := by
        intro he
        have hmod : (x + (1 + j)) % (2 * radius + 1) = (x + 0) % (2 * radius + 1) := by
          rw [show x + (1 + j) = x + 1 + j from by omega, show x + 0 = x from by omega, ← he]
        have hcancel : (1 + j) % (2 * radius + 1) = 0 % (2 * radius + 1) :=
          Nat.ModEq.add_left_cancel' x hmod
        have hdvd : (2 * radius + 1) ∣ (1 + j) := by
          apply Nat.dvd_of_mod_eq_zero
          simpa using hcancel
        have := Nat.le_of_dvd (by omega) hdvd
        omega
      rw [getD_set_ne _ _ hne2]
      have hstj := hstack (j + 1) (by omega)
      rwa [show x + (j + 1) = x + 1 + j from by omega] at hstj
  -- the sample at the next centre, as re-read from the slid stack
  have hpeek : (S.stack.set (x % (2 * radius + 1))
        (pixE buf0 idx nm (x + (2 * radius + 1) - radius))).getD
      ((radius + (x + 1)) % (2 * radius + 1)) 0 = pixE buf0 idx nm (x + 1) := by
    have hstr := hstack1 radius (by omega)
    rwa [show x + 1 + radius = radius + (x + 1) from by omega,
      show radius + (x + 1) - radius = x + 1 from by omega] at hstr
  -- sliding recurrences, instantiated at the window around x
  have hsoutrec : (∑ m ∈ Finset.range (radius + 1), pixE buf0 idx nm (x + (m + 1) - radius))
      + pixE buf0 idx nm (x + 0 - radius)
      = (∑ m ∈ Finset.range (radius + 1), pixE buf0 idx nm (x + m - radius))
        + pixE buf0 idx nm (x + (radius + 1) - radius) :=
    sumOut_rec (fun m => pixE buf0 idx nm (x + m - radius)) radius
  have hA1 : (∑ m ∈ Finset.range (radius + 1), pixE buf0 idx nm (x + (m + 1) - radius))
      = sumOutA buf0 idx nm radius (x + 1) := by
    unfold sumOutA
    apply Finset.sum_congr rfl
    intro m _
    rw [show x + (m + 1) = x + 1 + m from by omega]
  have hoS : (∑ m ∈ Finset.range (radius + 1), pixE buf0 idx nm (x + m - radius))
      = sumOutA buf0 idx nm radius x := rfl
  rw [hA1, hoS, show x + 0 - radius = x - radius from by omega,
    show x + (radius + 1) - radius = x + 1 from by omega] at hsoutrec
  have hA4 : pixE buf0 idx nm (x - radius) ≤ sumOutA buf0 idx nm radius x := by
    unfold sumOutA
    have h0m : pixE buf0 idx nm (x - radius) = pixE buf0 idx nm (x + 0 - radius) := by
      rw [Nat.add_zero]
    rw [h0m]
    exact Finset.single_le_sum (f := fun m => pixE buf0 idx nm (x + m - radius))
      (fun i _ => Nat.zero_le _) (Finset.mem_range.mpr (by omega))
  have hinrec : (∑ k ∈ Finset.range radius, pixE buf0 idx nm (x + (radius + 1 + k) - radius))
      + pixE buf0 idx nm (x + (2 * radius + 1) - radius)
      = pixE buf0 idx nm (x + (radius + 1) - radius)
        + ∑ k ∈ Finset.range radius, pixE buf0 idx nm (x + (radius + 2 + k) - radius) :=
    sumIn_rec (fun m => pixE buf0 idx nm (x + m - radius)) radius
  have hB1 : (∑ k ∈ Finset.range radius, pixE buf0 idx nm (x + (radius + 1 + k) - radius))
      = sumInB buf0 idx nm radius x := by
    unfold sumInB
    apply Finset.sum_congr rfl
    intro k _
    rw [show x + (radius + 1 + k) = x + 1 + k + radius from by omega,
      show x + 1 + k + radius - radius = x + 1 + k from by omega]
  have hB2 : (∑ k ∈ Finset.range radius, pixE buf0 idx nm (x + (radius + 2 + k) - radius))
      = sumInB buf0 idx nm radius (x + 1) := by
    unfold sumInB
    apply Finset.sum_congr rfl
    intro k _
    rw [show x + (radius + 2 + k) = x + 1 + 1 + k + radius from by omega,
      show x + 1 + 1 + k + radius - radius = x + 1 + 1 + k from by omega]
  rw [hB1, hB2, show x + (radius + 1) - radius = x + 1 from by omega] at hinrec
  have htrec : (∑ j ∈ Finset.range (2 * radius + 1),
        tentW radius j * pixE buf0 idx nm (x + (j + 1) - radius))
      + ∑ m ∈ Finset.range (radius + 1), pixE buf0 idx nm (x + m - radius)
      = (∑ j ∈ Finset.range (2 * radius + 1),
          tentW radius j * pixE buf0 idx nm (x + j - radius))
        + ∑ k ∈ Finset.range (radius + 1), pixE buf0 idx nm (x + (radius + 1 + k) - radius) :=
    tent_rec (fun m => pixE buf0 idx nm (x + m - radius)) radius
  have hC1 : (∑ j ∈ Finset.range (2 * radius + 1),
      tentW radius j * pixE buf0 idx nm (x + (j + 1) - radius))
      = tentSum buf0 idx nm radius (x + 1) := by
    unfold tentSum
    apply Finset.sum_congr rfl
    intro j _
    rw [show x + (j + 1) = x + 1 + j from by omega]
  have hC2 : (∑ k ∈ Finset.range (radius + 1), pixE buf0 idx nm (x + (radius + 1 + k) - radius))
      = sumInB buf0 idx nm radius x + pixE buf0 idx nm (x + (2 * radius + 1) - radius) := by
    rw [Finset.sum_range_succ, hB1,
      show x + (radius + 1 + radius) = x + (2 * radius + 1) - radius + radius from by omega,
      show x + (2 * radius + 1) - radius + radius - radius
        = x + (2 * radius + 1) - radius from by omega]
  rw [hC1, hC2] at htrec
  have htS : (∑ j ∈ Finset.range (2 * radius + 1),
      tentW radius j * pixE buf0 idx nm (x + j - radius)) = tentSum buf0 idx nm radius x := rfl
  have hoS : (∑ m ∈ Finset.range (radius + 1), pixE buf0 idx nm (x + m - radius))
      = sumOutA buf0 idx nm radius x := rfl
  rw [htS, hoS] at htrec
  have hle0 := sumOutA_le_tentSum buf0 idx nm radius x
  -- assemble the invariant at x + 1
  rw [hT]

  refine ⟨?_, ?_, ?_, ?_, ?_, ?_, ?_, ?_, rfl, rfl, ?_⟩
  · rw [List.length_set]
    exact hlen
  · rw [List.length_set]
    exact hslen
  · intro t ht hxt
    have hne : idx x ≠ idx t := by
      intro he
      have := hinj _ _ (by omega) ht he
      omega
    rw [getD_set_ne _ _ hne]
    exact hun t ht (by omega)
  · intro t ht
    by_cases htx : t = x
    · subst htx
      rw [getD_set_self _ _ _ (by rw [hlen]; exact hidx t (by omega)), hsum]
      rfl
    · have hne : idx x ≠ idx t := by
        intro he
        have := hinj _ _ (by omega) (by omega) he
        omega
      rw [getD_set_ne _ _ hne]
      exact hout t (by omega)
  · intro p hp
    rw [getD_set_ne _ _ (hp x (by omega))]
    exact hoff p hp
  · show S.sum - S.sum_out + (S.sum_in + pixE buf0 idx nm (x + (2 * radius + 1) - radius))
      = tentSum buf0 idx nm radius (x + 1)
    rw [hsum, hsin, hsout]
    omega
  · show S.sum_in + pixE buf0 idx nm (x + (2 * radius + 1) - radius)
      - (S.stack.set (x % (2 * radius + 1))
          (pixE buf0 idx nm (x + (2 * radius + 1) - radius))).getD
          ((radius + (x + 1)) % (2 * radius + 1)) 0
      = sumInB buf0 idx nm radius (x + 1)
    rw [hpeek, hsin]
    omega
  · show S.sum_out - pixE buf0 idx nm (x - radius)
      + (S.stack.set (x % (2 * radius + 1))
          (pixE buf0 idx nm (x + (2 * radius + 1) - radius))).getD
          ((radius + (x + 1)) % (2 * radius + 1)) 0
      = sumOutA buf0 idx nm radius (x + 1)
    rw [hpeek, hsout]
    omega
  · exact hstack1

/-- The main-loop invariant holds at every position `x ≤ nm` of a line. -/
lemma invLine_at (buf : List Nat) (idx : Nat → Nat) (n radius mul_sum shr_sum : Nat)
    (hidx : ∀ i, i ≤ n - 1 → idx i < buf.length)
    (hinj : ∀ i j, i ≤ n - 1 → j ≤ n - 1 → idx i = idx j → i = j) :
    ∀ x, x ≤ n - 1 → InvLine buf idx (n - 1) radius mul_sum shr_sum x
      (lineStateAt buf idx n radius mul_sum shr_sum x) := by
  intro x
  induction x with
  | zero =>
    intro _
    exact invLine_zero buf idx n radius mul_sum shr_sum
  | succ x ih =>
    intro hx
    have hstep : lineStateAt buf idx n radius mul_sum shr_sum (x + 1)
        = lineStep idx (n - 1) radius mul_sum shr_sum x
            (lineStateAt buf idx n radius mul_sum shr_sum x) := rfl
    rw [hstep]
    exact invLine_step buf idx (n - 1) radius mul_sum shr_sum x _ hidx hinj (by omega)
      (ih (by omega))

/-- Full characterisation of one line pass: every position of the line
receives the clamped, scaled tent-weighted window sum of the original
line; every other buffer position is untouched; the length is kept. -/
lemma linePass_spec (buf : List Nat) (idx : Nat → Nat) (n radius mul_sum shr_sum : Nat)
    (hn : 1 ≤ n)
    (hidx : ∀ i, i ≤ n - 1 → idx i < buf.length)
    (hinj : ∀ i j, i ≤ n - 1 → j ≤ n - 1 → idx i = idx j → i = j) :
    (linePass buf idx n radius mul_sum shr_sum).length = buf.length ∧
    (∀ t, t ≤ n - 1 → (linePass buf idx n radius mul_sum shr_sum).getD (idx t) 0
      = outVal buf idx (n - 1) radius mul_sum shr_sum t) ∧
    (∀ p, (∀ i, i ≤ n - 1 → idx i ≠ p) →
      (linePass buf idx n radius mul_sum shr_sum).getD p 0 = buf.getD p 0) := by
  obtain ⟨hlen, hslen, hun, hout, hoff, hsum, hsin, hsout, hsp, hxp, hstack⟩ :=
    invLine_at buf idx n radius mul_sum shr_sum hidx hinj (n - 1) (le_refl _)
  have hup : linePass buf idx n radius mul_sum shr_sum
      = ((lineStateAt buf idx n radius mul_sum shr_sum (n - 1)).buf.set
          (idx (n - 1))
          (clamp (((lineStateAt buf idx n radius mul_sum shr_sum (n - 1)).sum * mul_sum)
            >>> shr_sum) 0 255)) := by
    show (lineStateAt buf idx n radius mul_sum shr_sum n).buf = _
    rw [show n = (n - 1) + 1 from by omega]
    rfl
  refine ⟨?_, ?_, ?_⟩
  · rw [hup, List.length_set]
    exact hlen
  · intro t ht
    rw [hup]
    by_cases htn : t = n - 1
    · subst htn
      rw [getD_set_self _ _ _ (by rw [hlen]; exact hidx _ ht), hsum]
      rfl
    · have hne : idx (n - 1) ≠ idx t := fun he => htn (hinj _ _ (le_refl _) ht he).symm
      rw [getD_set_ne _ _ hne]
      exact hout t (by omega)
  · intro p hp
    rw [hup, getD_set_ne _ _ (hp (n - 1) (le_refl _))]
    exact hoff p hp

/-- The tent-weighted window sum of a line depends only on the samples of
that line. -/
lemma tentSum_congr (b1 b2 : List Nat) (idx : Nat → Nat) (nm radius x : Nat)
    (h : ∀ t, t ≤ nm → b1.getD (idx t) 0 = b2.getD (idx t) 0) :
    tentSum b1 idx nm radius x = tentSum b2 idx nm radius x := by
  unfold tentSum
  apply Finset.sum_congr rfl
  intro j _
  unfold pixE
  rw [h _ (by omega)]

/-- The output sample of a pass depends only on the samples of its line. -/
lemma outVal_congr (b1 b2 : List Nat) (idx : Nat → Nat) (nm radius mul_sum shr_sum x : Nat)
    (h : ∀ t, t ≤ nm → b1.getD (idx t) 0 = b2.getD (idx t) 0) :
    outVal b1 idx nm radius mul_sum shr_sum x = outVal b2 idx nm radius mul_sum shr_sum x := by
  unfold outVal
  rw [tentSum_congr b1 b2 idx nm radius x h]

/-- Row-major index arithmetic: a flat index determines its row and its
position in the row uniquely. -/
lemma row_inj (w : Nat) (hw : 0 < w) {y i y' i' : Nat} (hi : i < w) (hi' : i' < w)
    (he : y * w + i = y' * w + i') : y = y' ∧ i = i' := by
  have h1 : (y * w + i) % w = i := by
    rw [Nat.add_comm, Nat.add_mul_mod_self_right, Nat.mod_eq_of_lt hi]
  have h2 : (y' * w + i') % w = i' := by
    rw [Nat.add_comm, Nat.add_mul_mod_self_right, Nat.mod_eq_of_lt hi']
  have hii : i = i' := by rw [← h1, ← h2, he]
  subst hii
  have hyy : y * w = y' * w := by omega
  exact ⟨Nat.eq_of_mul_eq_mul_right hw hyy, rfl⟩

/-- Column-major index arithmetic: a flat index determines its column and
its position in the column uniquely. -/
lemma col_inj (w : Nat) (hw : 0 < w) {x i x' i' : Nat} (hx : x < w) (hx' : x' < w)
    (he : x + i * w = x' + i' * w) : x = x' ∧ i = i' := by
  have h1 : (x + i * w) % w = x := by
    rw [Nat.add_mul_mod_self_right, Nat.mod_eq_of_lt hx]
  have h2 : (x' + i' * w) % w = x' := by
    rw [Nat.add_mul_mod_self_right, Nat.mod_eq_of_lt hx']
  have hxx : x = x' := by rw [← h1, ← h2, he]
  subst hxx
  have hii : i * w = i' * w := by omega
  exact ⟨rfl, Nat.eq_of_mul_eq_mul_right hw hii⟩

/-- A row position lies inside the flat buffer. -/
lemma row_lt (w h : Nat) {y i : Nat} (hy : y < h) (hi : i < w) : y * w + i < w * h :=
  calc y * w + i < (y + 1) * w := by rw [Nat.succ_mul]; omega
    _ ≤ h * w := Nat.mul_le_mul_right w (by omega)
    _ = w * h := Nat.mul_comm h w

/-- A column position lies inside the flat buffer. -/
lemma col_lt (w h : Nat) {x i : Nat} (hx : x < w) (hi : i < h) : x + i * w < w * h :=
  calc x + i * w < (i + 1) * w := by rw [Nat.succ_mul]; omega
    _ ≤ h * w := Nat.mul_le_mul_right w (by omega)
    _ = w * h := Nat.mul_comm h w

/-- Characterisation of a whole pass: folding the line pass over a family
of `m` pairwise-disjoint lines writes into each line the outputs computed
from the original buffer, and leaves any position off all lines untouched. -/
lemma passFold_spec (buf0 : List Nat) (lineIdx : Nat → Nat → Nat)
    (n radius mul_sum shr_sum : Nat) (hn : 1 ≤ n) :
    ∀ m,
    (∀ ℓ, ℓ < m → ∀ i, i ≤ n - 1 → lineIdx ℓ i < buf0.length) →
    (∀ ℓ ℓ' i i', ℓ < m → ℓ' < m → i ≤ n - 1 → i' ≤ n - 1 →
      lineIdx ℓ i = lineIdx ℓ' i' → ℓ = ℓ' ∧ i = i') →
    (forLoop (fun ℓ b => linePass b (lineIdx ℓ) n radius mul_sum shr_sum) m buf0).length
        = buf0.length ∧
    (∀ ℓ, ℓ < m → ∀ t, t ≤ n - 1 →
      (forLoop (fun ℓ b => linePass b (lineIdx ℓ) n radius mul_sum shr_sum) m buf0).getD
          (lineIdx ℓ t) 0
        = outVal buf0 (lineIdx ℓ) (n - 1) radius mul_sum shr_sum t) ∧
    (∀ p, (∀ ℓ, ℓ < m → ∀ i, i ≤ n - 1 → lineIdx ℓ i ≠ p) →
      (forLoop (fun ℓ b => linePass b (lineIdx ℓ) n radius mul_sum shr_sum) m buf0).getD p 0
        = buf0.getD p 0) := by
  intro m
  induction m with
  | zero =>
    intro _ _
    exact ⟨rfl, fun ℓ hℓ => absurd hℓ (by omega), fun p _ => rfl⟩
  | succ m ih =>
    intro hidx hinj
    obtain ⟨ihlen, ihout, ihoff⟩ := ih
      (fun ℓ hℓ => hidx ℓ (by omega))
      (fun ℓ ℓ' i i' hℓ hℓ' => hinj ℓ ℓ' i i' (by omega) (by omega))
    set Bm := forLoop (fun ℓ b => linePass b (lineIdx ℓ) n radius mul_sum shr_sum) m buf0
      with hBm
    have hstep : forLoop (fun ℓ b => linePass b (lineIdx ℓ) n radius mul_sum shr_sum)
        (m + 1) buf0 = linePass Bm (lineIdx m) n radius mul_sum shr_sum := rfl
    have hidx' : ∀ i, i ≤ n - 1 → lineIdx m i < Bm.length := by
      intro i hi
      rw [ihlen]
      exact hidx m (by omega) i hi
    have hinj' : ∀ i j, i ≤ n - 1 → j ≤ n - 1 → lineIdx m i = lineIdx m j → i = j :=
      fun i j hi hj he => (hinj m m i j (by omega) (by omega) hi hj he).2
    obtain ⟨plen, pout, poff⟩ := linePass_spec Bm (lineIdx m) n radius mul_sum shr_sum hn
      hidx' hinj'
    have hmline : ∀ t, t ≤ n - 1 → Bm.getD (lineIdx m t) 0 = buf0.getD (lineIdx m t) 0 := by
      intro t ht
      apply ihoff
      intro ℓ hℓ i hi he
      have := hinj ℓ m i t (by omega) (by omega) hi ht he
      omega
    rw [hstep]
    refine ⟨by rw [plen, ihlen], ?_, ?_⟩
    · intro ℓ hℓ t ht
      by_cases hℓm : ℓ = m
      · subst hℓm
        rw [pout t ht]
        exact outVal_congr Bm buf0 (lineIdx ℓ) (n - 1) radius mul_sum shr_sum t hmline
      · have hoffp : ∀ i, i ≤ n - 1 → lineIdx m i ≠ lineIdx ℓ t := by
          intro i hi he
          have := hinj m ℓ i t (by omega) (by omega) hi ht he
          omega
        rw [poff _ hoffp]
        exact ihout ℓ (by omega) t ht
    · intro p hp
      rw [poff _ (fun i hi => hp m (by omega) i hi)]
      exact ihoff p (fun ℓ hℓ i hi => hp ℓ (by omega) i hi)

/-! ## Properties of the scaling tables -/

/-- Pixel-sample bound for edge-clamped reads. -/
lemma pixE_le (buf : List Nat) (idx : Nat → Nat) (nm radius q : Nat)
    (hidx : ∀ i, i ≤ nm → idx i < buf.length)
    (hval : ∀ p, p < buf.length → buf.getD p 0 ≤ 255) :
    pixE buf idx nm q ≤ 255 := by
  unfold pixE
  exact hval _ (hidx _ (by omega))

/-- The tent-weighted window sum of a byte-valued line is at most
`255 * (radius+1)^2`. -/
lemma tentSum_le (buf : List Nat) (idx : Nat → Nat) (nm radius x : Nat)
    (hidx : ∀ i, i ≤ nm → idx i < buf.length)
    (hval : ∀ p, p < buf.length → buf.getD p 0 ≤ 255) :
    tentSum buf idx nm radius x ≤ 255 * (radius + 1) ^ 2 := by
  unfold tentSum
  calc ∑ j ∈ Finset.range (2 * radius + 1), tentW radius j * pixE buf idx nm (x + j - radius)
      ≤ ∑ j ∈ Finset.range (2 * radius + 1), tentW radius j * 255 := by
        apply Finset.sum_le_sum
        intro j _
        exact Nat.mul_le_mul_left _ (pixE_le buf idx nm radius _ hidx hval)
    _ = (∑ j ∈ Finset.range (2 * radius + 1), tentW radius j) * 255 := by
        rw [Finset.sum_mul]
    _ = (radius + 1) ^ 2 * 255 := by rw [tentW_total]
    _ = 255 * (radius + 1) ^ 2 := Nat.mul_comm _ _

set_option maxRecDepth 4000 in
/-- For every table index, `(radius+1)^2 * mul` is the shifted power of two
rounded up, with error small enough that bytes divide exactly (checked for
all 255 entries). -/
lemma tables_div : ∀ r, r < 255 →
    2 ^ (stackblur_shr.getD r 0) ≤ (r + 1) ^ 2 * stackblur_mul.getD r 0 ∧
    255 * ((r + 1) ^ 2 * stackblur_mul.getD r 0 - 2 ^ (stackblur_shr.getD r 0))
      < 2 ^ (stackblur_shr.getD r 0) := by decide

set_option maxRecDepth 4000 in
/-- For every table index, the largest possible accumulator value times the
multiplier stays below `2^32` (checked for all 255 entries). -/
lemma tables_prod : ∀ r, r < 255 →
    255 * (r + 1) ^ 2 * stackblur_mul.getD r 0 < 4294967296 := by decide

/-- The fixed-point multiply-and-shift is exact division by `(radius+1)^2`
on all byte multiples: `((v * (r+1)^2) * mul) >> shr = v` for `v ≤ 255`. -/
lemma table_exact (r v : Nat) (hr : r ≤ 254) (hv : v ≤ 255) :
    ((v * (r + 1) ^ 2) * stackblur_mul.getD r 0) >>> (stackblur_shr.getD r 0) = v := by
  obtain ⟨h1, h2⟩ := tables_div r (by omega)
  rw [Nat.shiftRight_eq_div_pow]
  have he : v * (r + 1) ^ 2 * stackblur_mul.getD r 0
      = v * ((r + 1) ^ 2 * stackblur_mul.getD r 0 - 2 ^ (stackblur_shr.getD r 0))
        + v * 2 ^ (stackblur_shr.getD r 0) := by
    have hA : (r + 1) ^ 2 * stackblur_mul.getD r 0 - 2 ^ (stackblur_shr.getD r 0)
        + 2 ^ (stackblur_shr.getD r 0) = (r + 1) ^ 2 * stackblur_mul.getD r 0 := by omega
    rw [Nat.mul_assoc, ← Nat.mul_add, hA]
  have hd : v * ((r + 1) ^ 2 * stackblur_mul.getD r 0 - 2 ^ (stackblur_shr.getD r 0))
      < 2 ^ (stackblur_shr.getD r 0) :=
    lt_of_le_of_lt (Nat.mul_le_mul_right _ hv) h2
  rw [he, Nat.add_mul_div_right _ _ (Nat.pos_pow_of_pos _ (by omega)), Nat.div_eq_of_lt hd]
  omega

/-- Right shift is monotone. -/
lemma shiftRight_le_shiftRight {a b : Nat} (s : Nat) (h : a ≤ b) : a >>> s ≤ b >>> s := by
  rw [Nat.shiftRight_eq_div_pow, Nat.shiftRight_eq_div_pow]
  exact Nat.div_le_div_right h

/-- The scaled tent sum of a byte-valued line never exceeds 255, so the
defensive clamp never fires. -/
lemma scaled_le_255 (r T : Nat) (hr : r ≤ 254) (hT : T ≤ 255 * (r + 1) ^ 2) :
    (T * stackblur_mul.getD r 0) >>> (stackblur_shr.getD r 0) ≤ 255 := by
  have h255 := table_exact r 255 hr (le_refl 255)
  calc (T * stackblur_mul.getD r 0) >>> (stackblur_shr.getD r 0)
      ≤ ((255 * (r + 1) ^ 2) * stackblur_mul.getD r 0) >>> (stackblur_shr.getD r 0) :=
        shiftRight_le_shiftRight _ (Nat.mul_le_mul_right _ hT)
    _ = 255 := h255

/-- `clamp` into `[0,255]` never exceeds 255. -/
lemma clamp_le_255 (a : Nat) : clamp a 0 255 ≤ 255 := by
  unfold clamp
  split
  · omega
  · split <;> omega

/-- `clamp` into `[0,255]` is the identity on values at most 255. -/
lemma clamp_id (a : Nat) (h : a ≤ 255) : clamp a 0 255 = a := by
  unfold clamp
  split
  · omega
  · split <;> omega

/-! ## The two passes of `stackblur` -/

/-- Step 1 of `stackblur` is the line pass folded over all rows. -/
lemma stackblur_one (src : List Nat) (w h radius : Nat) :
    stackblur src w h radius 1
      = forLoop (fun y buf => linePass buf (fun i => y * w + i) w radius
          (stackblur_mul.getD radius 0) (stackblur_shr.getD radius 0)) h src := rfl

/-- Step 2 of `stackblur` is the line pass folded over all columns. -/
lemma stackblur_two (src : List Nat) (w h radius : Nat) :
    stackblur src w h radius 2
      = forLoop (fun x buf => linePass buf (fun i => x + i * w) h radius
          (stackblur_mul.getD radius 0) (stackblur_shr.getD radius 0)) w src := rfl

/-- Every flat index decomposes uniquely as a row position. -/
lemma pos_row (w h p : Nat) (hw : 0 < w) (hp : p < w * h) :
    p / w < h ∧ p % w < w ∧ (p / w) * w + p % w = p := by
  refine ⟨Nat.div_lt_of_lt_mul hp, Nat.mod_lt _ hw, ?_⟩
  rw [Nat.mul_comm]
  exact Nat.div_add_mod p w

/-- Every flat index decomposes uniquely as a column position. -/
lemma pos_col (w h p : Nat) (hw : 0 < w) (hp : p < w * h) :
    p % w < w ∧ p / w < h ∧ p % w + (p / w) * w = p := by
  refine ⟨Nat.mod_lt _ hw, Nat.div_lt_of_lt_mul hp, ?_⟩
  rw [Nat.mul_comm]
  exact Nat.mod_add_div p w

/-- Characterisation of step 1: each sample `(x0, y)` of the output is the
clamped scaled tent sum of row `y` of the input. -/
lemma stackblur1_spec (src : List Nat) (w h radius : Nat) (hw : 1 ≤ w) (hh : 1 ≤ h)
    (hlen : src.length = w * h) :
    (stackblur src w h radius 1).length = w * h ∧
    (∀ y x0, y < h → x0 < w →
      (stackblur src w h radius 1).getD (y * w + x0) 0
        = outVal src (fun i => y * w + i) (w - 1) radius
            (stackblur_mul.getD radius 0) (stackblur_shr.getD radius 0) x0) := by
  obtain ⟨flen, fout, _⟩ := passFold_spec src (fun y i => y * w + i) w radius
    (stackblur_mul.getD radius 0) (stackblur_shr.getD radius 0) hw h
    (fun y hy i hi => by rw [hlen]; exact row_lt w h hy (by omega))
    (fun y y' i i' hy hy' hi hi' he => row_inj w (by omega) (by omega) (by omega) he)
  rw [stackblur_one, flen, hlen]
  exact ⟨rfl, fun y x0 hy hx0 => fout y hy x0 (by omega)⟩

/-- Characterisation of step 2: each sample `(x0, y)` of the output is the
clamped scaled tent sum of column `x0` of the input. -/
lemma stackblur2_spec (src : List Nat) (w h radius : Nat) (hw : 1 ≤ w) (hh : 1 ≤ h)
    (hlen : src.length = w * h) :
    (stackblur src w h radius 2).length = w * h ∧
    (∀ x0 y, x0 < w → y < h →
      (stackblur src w h radius 2).getD (x0 + y * w) 0
        = outVal src (fun i => x0 + i * w) (h - 1) radius
            (stackblur_mul.getD radius 0) (stackblur_shr.getD radius 0) y) := by
  obtain ⟨flen, fout, _⟩ := passFold_spec src (fun x i => x + i * w) h radius
    (stackblur_mul.getD radius 0) (stackblur_shr.getD radius 0) hh w
    (fun x hx i hi => by rw [hlen]; exact col_lt w h hx (by omega))
    (fun x x' i i' hx hx' hi hi' he => col_inj w (by omega) (by omega) (by omega) he)
  rw [stackblur_two, flen, hlen]
  exact ⟨rfl, fun x0 y hx0 hy => fout x0 hx0 y (by omega)⟩

/-- Every sample of the step-1 output is a byte (the outputs are clamped;
positions off all rows do not exist). -/
lemma stackblur1_le (src : List Nat) (w h radius : Nat) (hw : 1 ≤ w) (hh : 1 ≤ h)
    (hlen : src.length = w * h) :
    ∀ p, p < (stackblur src w h radius 1).length →
      (stackblur src w h radius 1).getD p 0 ≤ 255 := by
  obtain ⟨flen, fout⟩ := stackblur1_spec src w h radius hw hh hlen
  intro p hp
  rw [flen] at hp
  obtain ⟨hy, hx, hdec⟩ := pos_row w h p (by omega) hp
  rw [← hdec, fout _ _ hy hx]
  exact clamp_le_255 _

/-! ## Claims -/

/-- C1: For every buffer of width `w ≥ 1` and height `h ≥ 1` with samples in
`[0,255]` and every radius in `[1,254]`, the horizontal pass (step 1)
replaces the sample at `(x0, y)` with
`clamp((T * mul[radius]) >> shr[radius], 0, 255)`, where `T` is the
tent-weighted, edge-clamped window sum of row `y` of the original
(pre-pass) buffer (`tentSum`, with weight `radius+1-|k|` for offset `k`):
the in-place O(1)-amortised sliding-window update produces exactly the
same output as computing each window sum directly from the original line,
so in-place mutation never changes any output value. -/
theorem C1_horizontal_pass_formula (src : List Nat) (w h radius : Nat)
    (hw : 1 ≤ w) (hh : 1 ≤ h) (hr1 : 1 ≤ radius) (hr : radius ≤ 254)
    (hlen : src.length = w * h) (hval : ∀ p, p < src.length → src.getD p 0 ≤ 255) :
    ∀ y x0, y < h → x0 < w →
      (stackblur src w h radius 1).getD (y * w + x0) 0
        = clamp ((tentSum src (fun i => y * w + i) (w - 1) radius x0
            * stackblur_mul.getD radius 0) >>> stackblur_shr.getD radius 0) 0 255 := by
  intro y x0 hy hx0
  exact (stackblur1_spec src w h radius hw hh hlen).2 y x0 hy hx0

theorem C1_witness :
    (1 ≤ 5 ∧ 1 ≤ 1 ∧ 1 ≤ 254 ∧ ([0, 0, 255, 0, 0] : List Nat).length = 5 * 1) ∧
    (stackblur [0, 0, 255, 0, 0] 5 1 1 1).getD (0 * 5 + 2) 0
      = clamp ((tentSum [0, 0, 255, 0, 0] (fun i => 0 * 5 + i) (5 - 1) 1 2
          * stackblur_mul.getD 1 0) >>> stackblur_shr.getD 1 0) 0 255 :=
  ⟨by decide, C1_horizontal_pass_formula [0, 0, 255, 0, 0] 5 1 1 (by decide) (by decide)
    (by decide) (by decide) (by decide) (by decide) 0 2 (by decide) (by decide)⟩

/-- C2 (counterexample): the claim says the tables implement division by
`(radius*2+1)^2`.  At `radius = 1`, `v = 1` the claimed candidate sum is
`s = 1 * (2*1+1)^2 = 9`, but `(9 * mul[1]) >> shr[1] = (9*512) >> 11 = 2`,
not `1`; so the claim as stated is false. -/
theorem C2_counterexample :
    ((1 * (2 * 1 + 1) ^ 2) * stackblur_mul.getD 1 0) >>> stackblur_shr.getD 1 0 = 2 := by
  decide

/-- C2 (amended): the scaling-table pair implements approximate division by
`(radius+1)^2` — the total weight of the triangular (tent) kernel of one
1-D pass — not by the window width squared: for every radius in `[1,254]`
and every `v` in `[0,255]`, with `s = v * (radius+1)^2`,
`(s * stackblur_mul[radius]) >> stackblur_shr[radius] = v`. -/
theorem C2_table_divides_by_tent_weight (radius v : Nat)
    (hr1 : 1 ≤ radius) (hr : radius ≤ 254) (hv : v ≤ 255) :
    ((v * (radius + 1) ^ 2) * stackblur_mul.getD radius 0)
      >>> stackblur_shr.getD radius 0 = v :=
  table_exact radius v hr hv

theorem C2_witness :
    (1 ≤ 3 ∧ 3 ≤ 254 ∧ 200 ≤ 255) ∧
    ((200 * (3 + 1) ^ 2) * stackblur_mul.getD 3 0) >>> stackblur_shr.getD 3 0 = 200 :=
  ⟨by decide, C2_table_divides_by_tent_weight 3 200 (by decide) (by decide) (by decide)⟩

/-- C3: `stackblur_mul[1] = 512`, `stackblur_shr[1] = 11`, and the
horizontal pass with width 5, height 1, radius 1 on `[0,0,255,0,0]`
produces exactly `[0,63,127,63,0]`; in particular position 0 yields 0 and
position 2 yields `(510*512) >> 11 = 127`. -/
theorem C3_golden_row :
    stackblur_mul.getD 1 0 = 512 ∧ stackblur_shr.getD 1 0 = 11 ∧
    stackblur [0, 0, 255, 0, 0] 5 1 1 1 = [0, 63, 127, 63, 0] ∧
    (stackblur [0, 0, 255, 0, 0] 5 1 1 1).getD 0 0 = 0 ∧
    (510 * 512) >>> 11 = 127 ∧
    (stackblur [0, 0, 255, 0, 0] 5 1 1 1).getD 2 0 = 127 := by
  decide

/-- C5 (code evaluated at the failing input): the JNI entry point performs
no precondition validation at all — with the invalid radius 0 (outside the
required `[1,254]`) it does not fail with an error but simply runs both
blur passes to completion and returns normally.  The spec requires an
explicit precondition check that the code does not contain. -/
theorem C5_entry_runs_on_invalid_radius :
    Java_com_jxtras_android_utils_ImageUtils_stackblur [0, 255] 2 1 0 = [0, 255] ∧
    Java_com_jxtras_android_utils_ImageUtils_stackblur [0, 255] 2 1 0
      = stackblur (stackblur [0, 255] 2 1 0 1) 2 1 0 2 := by
  exact ⟨by decide, rfl⟩

/-- C7: the public blur entry point is exactly the sequential composition
of the two one-dimensional passes — step 1 over every row of the original
buffer, then step 2 over every column of the buffer already holding the
complete step-1 output — and the vertical pass computes the same
tent-weighted edge-clamped formula along columns (`n = height`,
stride = `width`) that the horizontal pass computes along rows. -/
theorem C7_two_pass_composition (src : List Nat) (w h radius : Nat)
    (hw : 1 ≤ w) (hh : 1 ≤ h) (hr1 : 1 ≤ radius) (hr : radius ≤ 254)
    (hlen : src.length = w * h) :
    Java_com_jxtras_android_utils_ImageUtils_stackblur src w h radius
      = stackblur (stackblur src w h radius 1) w h radius 2 ∧
    (∀ x0 y, x0 < w → y < h →
      (stackblur (stackblur src w h radius 1) w h radius 2).getD (y * w + x0) 0
        = clamp ((tentSum (stackblur src w h radius 1) (fun i => x0 + i * w)
              (h - 1) radius y
            * stackblur_mul.getD radius 0) >>> stackblur_shr.getD radius 0) 0 255) := by
  refine ⟨rfl, ?_⟩
  intro x0 y hx0 hy
  have hmidlen : (stackblur src w h radius 1).length = w * h :=
    (stackblur1_spec src w h radius hw hh hlen).1
  rw [show y * w + x0 = x0 + y * w from by omega]
  exact (stackblur2_spec (stackblur src w h radius 1) w h radius hw hh hmidlen).2
    x0 y hx0 hy

theorem C7_witness :
    (1 ≤ 3 ∧ 1 ≤ 2 ∧ 1 ≤ 1 ∧ 1 ≤ 254 ∧ ([0, 0, 255, 0, 0, 0] : List Nat).length = 3 * 2) ∧
    Java_com_jxtras_android_utils_ImageUtils_stackblur [0, 0, 255, 0, 0, 0] 3 2 1
      = stackblur (stackblur [0, 0, 255, 0, 0, 0] 3 2 1 1) 3 2 1 2 ∧
    (stackblur (stackblur [0, 0, 255, 0, 0, 0] 3 2 1 1) 3 2 1 2).getD (1 * 3 + 2) 0
      = clamp ((tentSum (stackblur [0, 0, 255, 0, 0, 0] 3 2 1 1) (fun i => 2 + i * 3)
            (2 - 1) 1 1
          * stackblur_mul.getD 1 0) >>> stackblur_shr.getD 1 0) 0 255 := by
  have h := C7_two_pass_composition [0, 0, 255, 0, 0, 0] 3 2 1 (by decide) (by decide)
    (by decide) (by decide) (by decide)
  exact ⟨by decide, h.1, h.2 2 1 (by decide) (by decide)⟩

/-- The tent sum over a constant buffer is the total tent weight times the
constant. -/
lemma tentSum_replicate (L v : Nat) (idx : Nat → Nat) (nm radius x : Nat)
    (hidx : ∀ i, i ≤ nm → idx i < L) :
    tentSum (List.replicate L v) idx nm radius x = (radius + 1) ^ 2 * v := by
  unfold tentSum
  have hterm : ∀ j ∈ Finset.range (2 * radius + 1),
      tentW radius j * pixE (List.replicate L v) idx nm (x + j - radius)
        = tentW radius j * v := by
    intro j _
    unfold pixE
    rw [getD_replicate v (hidx _ (by omega))]
  rw [Finset.sum_congr rfl hterm, ← Finset.sum_mul, tentW_total]

/-- Step 1 on a constant buffer returns the buffer unchanged. -/
lemma stackblur_replicate1 (w h radius v : Nat) (hw : 1 ≤ w) (hh : 1 ≤ h)
    (hr : radius ≤ 254) (hv : v ≤ 255) :
    stackblur (List.replicate (w * h) v) w h radius 1 = List.replicate (w * h) v := by
  obtain ⟨flen, fout⟩ := stackblur1_spec (List.replicate (w * h) v) w h radius hw hh
    (by simp)
  apply list_ext_getD _ _ (by rw [flen]; simp)
  intro p hp
  rw [flen] at hp
  obtain ⟨hy, hx, hdec⟩ := pos_row w h p (by omega) hp
  rw [← hdec, fout _ _ hy hx]
  unfold outVal
  rw [tentSum_replicate (w * h) v _ (w - 1) radius _
        (fun i hi => row_lt w h hy (by omega)),
    Nat.mul_comm ((radius + 1) ^ 2) v, table_exact radius v hr hv, clamp_id v hv,
    getD_replicate v (row_lt w h hy (by omega))]

/-- Step 2 on a constant buffer returns the buffer unchanged. -/
lemma stackblur_replicate2 (w h radius v : Nat) (hw : 1 ≤ w) (hh : 1 ≤ h)
    (hr : radius ≤ 254) (hv : v ≤ 255) :
    stackblur (List.replicate (w * h) v) w h radius 2 = List.replicate (w * h) v := by
  obtain ⟨flen, fout⟩ := stackblur2_spec (List.replicate (w * h) v) w h radius hw hh
    (by simp)
  apply list_ext_getD _ _ (by rw [flen]; simp)
  intro p hp
  rw [flen] at hp
  obtain ⟨hx, hy, hdec⟩ := pos_col w h p (by omega) hp
  rw [← hdec, fout _ _ hx hy]
  unfold outVal
  rw [tentSum_replicate (w * h) v _ (h - 1) radius _
        (fun i hi => col_lt w h hx (by omega)),
    Nat.mul_comm ((radius + 1) ^ 2) v, table_exact radius v hr hv, clamp_id v hv,
    getD_replicate v (col_lt w h hx (by omega))]

/-- C4: for every width `w ≥ 1`, height `h ≥ 1`, radius in `[1,254]` and
constant `v` in `[0,255]`, the full two-pass blur maps the constant buffer
to itself: constant images are fixed points of the filter. -/
theorem C4_constant_fixed_point (w h radius v : Nat)
    (hw : 1 ≤ w) (hh : 1 ≤ h) (hr1 : 1 ≤ radius) (hr : radius ≤ 254) (hv : v ≤ 255) :
    Java_com_jxtras_android_utils_ImageUtils_stackblur
      (List.replicate (w * h) v) w h radius = List.replicate (w * h) v := by
  show stackblur (stackblur (List.replicate (w * h) v) w h radius 1) w h radius 2
    = List.replicate (w * h) v
  rw [stackblur_replicate1 w h radius v hw hh hr hv,
    stackblur_replicate2 w h radius v hw hh hr hv]

theorem C4_witness :
    (1 ≤ 2 ∧ 1 ≤ 2 ∧ 1 ≤ 1 ∧ 1 ≤ 254 ∧ 7 ≤ 255) ∧
    Java_com_jxtras_android_utils_ImageUtils_stackblur
      (List.replicate (2 * 2) 7) 2 2 1 = List.replicate (2 * 2) 7 :=
  ⟨by decide, C4_constant_fixed_point 2 2 1 7 (by decide) (by decide) (by decide)
    (by decide) (by decide)⟩

/-- With radius 0 the window is a single sample. -/
lemma tentSum_radius_zero (buf : List Nat) (idx : Nat → Nat) (nm x : Nat) :
    tentSum buf idx nm 0 x = buf.getD (idx (min x nm)) 0 := by
  unfold tentSum
  rw [show 2 * 0 + 1 = 1 from rfl, Finset.sum_range_one]
  unfold tentW pixE
  simp

/-- Scaling by `(mul, shr) = (512, 9)` is the identity. -/
lemma shift_512_9 (v : Nat) : (v * 512) >>> 9 = v := by
  rw [Nat.shiftRight_eq_div_pow, show (2 : Nat) ^ 9 = 512 from rfl]
  omega

/-- Step 1 with radius 0 is the identity on byte buffers. -/
lemma stackblur_zero1 (src : List Nat) (w h : Nat) (hw : 1 ≤ w) (hh : 1 ≤ h)
    (hlen : src.length = w * h) (hval : ∀ p, p < src.length → src.getD p 0 ≤ 255) :
    stackblur src w h 0 1 = src := by
  obtain ⟨flen, fout⟩ := stackblur1_spec src w h 0 hw hh hlen
  apply list_ext_getD _ _ (by rw [flen, hlen])
  intro p hp
  rw [flen] at hp
  obtain ⟨hy, hx, hdec⟩ := pos_row w h p (by omega) hp
  rw [← hdec, fout _ _ hy hx]
  unfold outVal
  rw [tentSum_radius_zero, show min (p % w) (w - 1) = p % w from by omega,
    show stackblur_mul.getD 0 0 = 512 from rfl, show stackblur_shr.getD 0 0 = 9 from rfl,
    shift_512_9, clamp_id _ (hval _ (by rw [hlen]; omega))]

/-- Step 2 with radius 0 is the identity on byte buffers. -/
lemma stackblur_zero2 (src : List Nat) (w h : Nat) (hw : 1 ≤ w) (hh : 1 ≤ h)
    (hlen : src.length = w * h) (hval : ∀ p, p < src.length → src.getD p 0 ≤ 255) :
    stackblur src w h 0 2 = src := by
  obtain ⟨flen, fout⟩ := stackblur2_spec src w h 0 hw hh hlen
  apply list_ext_getD _ _ (by rw [flen, hlen])
  intro p hp
  rw [flen] at hp
  obtain ⟨hx, hy, hdec⟩ := pos_col w h p (by omega) hp
  rw [← hdec, fout _ _ hx hy]
  unfold outVal
  rw [tentSum_radius_zero, show min (p / w) (h - 1) = p / w from by omega,
    show stackblur_mul.getD 0 0 = 512 from rfl, show stackblur_shr.getD 0 0 = 9 from rfl,
    shift_512_9, clamp_id _ (hval _ (by rw [hlen]; omega))]

/-- C8: with radius 0 each pass — and therefore the full two-pass blur —
leaves every sample unchanged: the window has a single sample of weight 1,
the table entry is `(mul, shr) = (512, 9)`, and `(v*512) >> 9 = v`. -/
theorem C8_radius_zero_identity (src : List Nat) (w h : Nat)
    (hw : 1 ≤ w) (hh : 1 ≤ h)
    (hlen : src.length = w * h) (hval : ∀ p, p < src.length → src.getD p 0 ≤ 255) :
    stackblur_mul.getD 0 0 = 512 ∧ stackblur_shr.getD 0 0 = 9 ∧
    stackblur src w h 0 1 = src ∧ stackblur src w h 0 2 = src ∧
    Java_com_jxtras_android_utils_ImageUtils_stackblur src w h 0 = src := by
  have h1 := stackblur_zero1 src w h hw hh hlen hval
  have h2 := stackblur_zero2 src w h hw hh hlen hval
  refine ⟨rfl, rfl, h1, h2, ?_⟩
  show stackblur (stackblur src w h 0 1) w h 0 2 = src
  rw [h1, h2]

theorem C8_witness :
    (1 ≤ 2 ∧ 1 ≤ 2 ∧ ([5, 200, 13, 77] : List Nat).length = 2 * 2) ∧
    stackblur [5, 200, 13, 77] 2 2 0 1 = [5, 200, 13, 77] ∧
    Java_com_jxtras_android_utils_ImageUtils_stackblur [5, 200, 13, 77] 2 2 0
      = [5, 200, 13, 77] := by
  have h := C8_radius_zero_identity [5, 200, 13, 77] 2 2 (by decide) (by decide)
    (by decide) (by decide)
  exact ⟨by decide, h.2.2.1, h.2.2.2.2⟩

/-- C6: for byte-valued inputs and a valid radius, every sample written by
either pass lies in `[0,255]`, and moreover the defensive clamp never
fires: at every emission of both passes the pre-clamp scaled value
`(sum * mul[radius]) >> shr[radius]` is already at most 255 (so the
clamp's out-of-range branches are unreachable), and the written sample
equals the unclamped value. -/
theorem C6_no_clamp_needed (src : List Nat) (w h radius : Nat)
    (hw : 1 ≤ w) (hh : 1 ≤ h) (hr1 : 1 ≤ radius) (hr : radius ≤ 254)
    (hlen : src.length = w * h) (hval : ∀ p, p < src.length → src.getD p 0 ≤ 255) :
    (∀ y x0, y < h → x0 < w →
      (tentSum src (fun i => y * w + i) (w - 1) radius x0 * stackblur_mul.getD radius 0)
          >>> stackblur_shr.getD radius 0 ≤ 255 ∧
      clamp ((tentSum src (fun i => y * w + i) (w - 1) radius x0
            * stackblur_mul.getD radius 0) >>> stackblur_shr.getD radius 0) 0 255
        = (tentSum src (fun i => y * w + i) (w - 1) radius x0
            * stackblur_mul.getD radius 0) >>> stackblur_shr.getD radius 0 ∧
      (stackblur src w h radius 1).getD (y * w + x0) 0
        = (tentSum src (fun i => y * w + i) (w - 1) radius x0
            * stackblur_mul.getD radius 0) >>> stackblur_shr.getD radius 0) ∧
    (∀ x0 y, x0 < w → y < h →
      (tentSum (stackblur src w h radius 1) (fun i => x0 + i * w) (h - 1) radius y
            * stackblur_mul.getD radius 0) >>> stackblur_shr.getD radius 0 ≤ 255 ∧
      clamp ((tentSum (stackblur src w h radius 1) (fun i => x0 + i * w) (h - 1) radius y
            * stackblur_mul.getD radius 0) >>> stackblur_shr.getD radius 0) 0 255
        = (tentSum (stackblur src w h radius 1) (fun i => x0 + i * w) (h - 1) radius y
            * stackblur_mul.getD radius 0) >>> stackblur_shr.getD radius 0 ∧
      (stackblur (stackblur src w h radius 1) w h radius 2).getD (y * w + x0) 0
        = (tentSum (stackblur src w h radius 1) (fun i => x0 + i * w) (h - 1) radius y
            * stackblur_mul.getD radius 0) >>> stackblur_shr.getD radius 0) := by
  have hmidlen : (stackblur src w h radius 1).length = w * h :=
    (stackblur1_spec src w h radius hw hh hlen).1
  have hmidval : ∀ p, p < (stackblur src w h radius 1).length →
      (stackblur src w h radius 1).getD p 0 ≤ 255 :=
    stackblur1_le src w h radius hw hh hlen
  constructor
  · intro y x0 hy hx0
    have hT := tentSum_le src (fun i => y * w + i) (w - 1) radius x0
      (fun i hi => by rw [hlen]; exact row_lt w h hy (by omega)) hval
    have hpre := scaled_le_255 radius _ hr hT
    refine ⟨hpre, clamp_id _ hpre, ?_⟩
    rw [(stackblur1_spec src w h radius hw hh hlen).2 y x0 hy hx0]
    exact clamp_id _ hpre
  · intro x0 y hx0 hy
    have hT := tentSum_le (stackblur src w h radius 1) (fun i => x0 + i * w)
      (h - 1) radius y
      (fun i hi => by rw [hmidlen]; exact col_lt w h hx0 (by omega)) hmidval
    have hpre := scaled_le_255 radius _ hr hT
    refine ⟨hpre, clamp_id _ hpre, ?_⟩
    rw [show y * w + x0 = x0 + y * w from by omega,
      (stackblur2_spec (stackblur src w h radius 1) w h radius hw hh hmidlen).2
        x0 y hx0 hy]
    exact clamp_id _ hpre

theorem C6_witness :
    (1 ≤ 5 ∧ 1 ≤ 1 ∧ 1 ≤ 254 ∧ ([0, 0, 255, 0, 0] : List Nat).length = 5 * 1) ∧
    (tentSum [0, 0, 255, 0, 0] (fun i => 0 * 5 + i) (5 - 1) 1 2
        * stackblur_mul.getD 1 0) >>> stackblur_shr.getD 1 0 ≤ 255 ∧
    (stackblur [0, 0, 255, 0, 0] 5 1 1 1).getD (0 * 5 + 2) 0
      = (tentSum [0, 0, 255, 0, 0] (fun i => 0 * 5 + i) (5 - 1) 1 2
          * stackblur_mul.getD 1 0) >>> stackblur_shr.getD 1 0 := by
  have h := C6_no_clamp_needed [0, 0, 255, 0, 0] 5 1 1 (by decide) (by decide) (by decide)
    (by decide) (by decide) (by decide)
  exact ⟨by decide, (h.1 0 2 (by decide) (by decide)).1, (h.1 0 2 (by decide) (by decide)).2.2⟩

/-- C9: for a byte-valued line and any radius up to 254, at the start of
every main-loop iteration `x` of a pass the accumulator `sum` is at most
`255*(radius+1)^2` (hence at most `16,581,375`), the auxiliary sums
`sum_in` and `sum_out` are each at most `255*(2*radius+1)`, and the scaled
product `sum * stackblur_mul[radius]` — the only multiplication performed —
is strictly below `2^32`: no intermediate quantity overflows unsigned
32-bit arithmetic. -/
theorem C9_no_32bit_overflow (buf : List Nat) (idx : Nat → Nat) (n radius : Nat)
    (hn : 1 ≤ n) (hr : radius ≤ 254)
    (hidx : ∀ i, i ≤ n - 1 → idx i < buf.length)
    (hinj : ∀ i j, i ≤ n - 1 → j ≤ n - 1 → idx i = idx j → i = j)
    (hval : ∀ p, p < buf.length → buf.getD p 0 ≤ 255) :
    ∀ x, x ≤ n - 1 →
      (lineStateAt buf idx n radius (stackblur_mul.getD radius 0)
          (stackblur_shr.getD radius 0) x).sum ≤ 255 * (radius + 1) ^ 2 ∧
      (lineStateAt buf idx n radius (stackblur_mul.getD radius 0)
          (stackblur_shr.getD radius 0) x).sum ≤ 16581375 ∧
      (lineStateAt buf idx n radius (stackblur_mul.getD radius 0)
          (stackblur_shr.getD radius 0) x).sum_in ≤ 255 * (2 * radius + 1) ∧
      (lineStateAt buf idx n radius (stackblur_mul.getD radius 0)
          (stackblur_shr.getD radius 0) x).sum_out ≤ 255 * (2 * radius + 1) ∧
      (lineStateAt buf idx n radius (stackblur_mul.getD radius 0)
          (stackblur_shr.getD radius 0) x).sum * stackblur_mul.getD radius 0
        < 4294967296 := by
  intro x hx
  obtain ⟨hlen, hslen, hun, hout, hoff, hsum, hsin, hsout, hsp, hxp, hstack⟩ :=
    invLine_at buf idx n radius (stackblur_mul.getD radius 0)
      (stackblur_shr.getD radius 0) hidx hinj x hx
  have hT : tentSum buf idx (n - 1) radius x ≤ 255 * (radius + 1) ^ 2 :=
    tentSum_le buf idx (n - 1) radius x hidx hval
  have hsq : (radius + 1) ^ 2 ≤ 65025 := by
    calc (radius + 1) ^ 2 ≤ 255 ^ 2 := Nat.pow_le_pow_left (by omega) 2
      _ = 65025 := by norm_num
  have hin : sumInB buf idx (n - 1) radius x ≤ 255 * radius := by
    unfold sumInB
    calc ∑ k ∈ Finset.range radius, pixE buf idx (n - 1) (x + 1 + k)
        ≤ ∑ _k ∈ Finset.range radius, 255 :=
          Finset.sum_le_sum (fun k _ => pixE_le buf idx (n - 1) radius _ hidx hval)
      _ = radius * 255 := by rw [Finset.sum_const, Finset.card_range, smul_eq_mul]
      _ = 255 * radius := Nat.mul_comm _ _
  have hout2 : sumOutA buf idx (n - 1) radius x ≤ 255 * (radius + 1) := by
    unfold sumOutA
    calc ∑ m ∈ Finset.range (radius + 1), pixE buf idx (n - 1) (x + m - radius)
        ≤ ∑ _m ∈ Finset.range (radius + 1), 255 :=
          Finset.sum_le_sum (fun m _ => pixE_le buf idx (n - 1) radius _ hidx hval)
      _ = (radius + 1) * 255 := by rw [Finset.sum_const, Finset.card_range, smul_eq_mul]
      _ = 255 * (radius + 1) := Nat.mul_comm _ _
  refine ⟨by rw [hsum]; exact hT, ?_, ?_, ?_, ?_⟩
  · rw [hsum]
    calc tentSum buf idx (n - 1) radius x ≤ 255 * (radius + 1) ^ 2 := hT
      _ ≤ 255 * 65025 := Nat.mul_le_mul_left 255 hsq
      _ = 16581375 := by norm_num
  · rw [hsin]
    calc sumInB buf idx (n - 1) radius x ≤ 255 * radius := hin
      _ ≤ 255 * (2 * radius + 1) := Nat.mul_le_mul_left 255 (by omega)
  · rw [hsout]
    calc sumOutA buf idx (n - 1) radius x ≤ 255 * (radius + 1) := hout2
      _ ≤ 255 * (2 * radius + 1) := Nat.mul_le_mul_left 255 (by omega)
  · rw [hsum]
    calc tentSum buf idx (n - 1) radius x * stackblur_mul.getD radius 0
        ≤ 255 * (radius + 1) ^ 2 * stackblur_mul.getD radius 0 :=
          Nat.mul_le_mul_right _ hT
      _ < 4294967296 := tables_prod radius (by omega)

theorem C9_witness :
    (1 ≤ 2 ∧ 1 ≤ 254 ∧ 1 ≤ 2 - 1) ∧
    (lineStateAt [10, 200] (fun i => i) 2 1 (stackblur_mul.getD 1 0)
        (stackblur_shr.getD 1 0) 1).sum ≤ 255 * (1 + 1) ^ 2 ∧
    (lineStateAt [10, 200] (fun i => i) 2 1 (stackblur_mul.getD 1 0)
        (stackblur_shr.getD 1 0) 1).sum * stackblur_mul.getD 1 0 < 4294967296 := by
  have h := C9_no_32bit_overflow [10, 200] (fun i => i) 2 1 (by decide) (by decide)
    (by intro i hi; simpa using by omega) (fun i j _ _ he => he)
    (by decide) 1 (by decide)
  exact ⟨by decide, h.1, h.2.2.2.2⟩

/-! ## Bounds-checked (Option-valued) copy of the pass, for claim C10

Each definition performs the same computation as its total counterpart but
returns `none` whenever an index used to access the pixel buffer or the
circular stack would be out of bounds. -/

/-- Checked body of the first initialisation loop: reads the line's first
sample and writes stack slot `i`. -/
def init1BodyChecked (idx : Nat → Nat) (i : Nat) (s : LineState) : Option LineState :=
  if idx 0 < s.buf.length ∧ i < s.stack.length then some (init1Body idx i s) else none

/-- Checked body of the second initialisation loop: reads the line at the
clamped position `p` and writes stack slot `i + radius`. -/
def init2BodyChecked (idx : Nat → Nat) (nm radius : Nat) (i0 : Nat)
    (sp : LineState × Nat) : Option (LineState × Nat) :=
  let i := i0 + 1
  let p := if i ≤ nm then sp.2 + 1 else sp.2
  if idx p < sp.1.buf.length ∧ i + radius < sp.1.stack.length then
    some (init2Body idx nm radius i0 sp)
  else none

/-- Checked main-loop body: the four accesses of one iteration are the
destination write at `idx x`, the stack read/write at `stack_start`, the
source read at `idx xp1`, and the stack read at `sp1`. -/
def lineStepChecked (idx : Nat → Nat) (nm radius mul_sum shr_sum : Nat) (x : Nat)
    (st : LineState) : Option LineState :=
  let div := 2 * radius + 1
  let ss0 := st.sp + div - radius
  let stack_start := if div ≤ ss0 then ss0 - div else ss0
  let xp1 := if st.xp < nm then st.xp + 1 else st.xp
  let sp1 := if div ≤ st.sp + 1 then 0 else st.sp + 1
  if idx x < st.buf.length ∧ stack_start < st.stack.length ∧
      idx xp1 < st.buf.length ∧ sp1 < st.stack.length then
    some (lineStep idx nm radius mul_sum shr_sum x st)
  else none

/-- Checked line pass. -/
def linePassChecked (buf : List Nat) (idx : Nat → Nat)
    (n radius mul_sum shr_sum : Nat) : Option (List Nat) :=
  let nm := n - 1
  let st0 : LineState :=
    { buf := buf, stack := List.replicate (2 * radius + 1) 0, sum := 0,
      sum_in := 0, sum_out := 0, sp := radius, xp := min radius nm }
  match forLoopM (init1BodyChecked idx) (radius + 1) st0 with
  | none => none
  | some st1 =>
    match forLoopM (init2BodyChecked idx nm radius) radius (st1, 0) with
    | none => none
    | some st2 =>
      match forLoopM (lineStepChecked idx nm radius mul_sum shr_sum) n st2.1 with
      | none => none
      | some stF => some stF.buf

/-- Checked `stackblur`. -/
def stackblurChecked (src : List Nat) (w h radius stp : Nat) : Option (List Nat) :=
  let mul_sum := stackblur_mul.getD radius 0
  let shr_sum := stackblur_shr.getD radius 0
  if stp = 1 then
    forLoopM (fun y buf => linePassChecked buf (fun i => y * w + i) w radius mul_sum shr_sum)
      h src
  else if stp = 2 then
    forLoopM (fun x buf => linePassChecked buf (fun i => x + i * w) h radius mul_sum shr_sum)
      w src
  else some src

/-- Checked two-pass entry point. -/
def javaStackblurChecked (src : List Nat) (width height radius : Nat) : Option (List Nat) :=
  match stackblurChecked src width height radius 1 with
  | none => none
  | some mid => stackblurChecked mid width height radius 2

/-- A checked loop agrees with the unchecked loop as long as an invariant
making every body check pass is maintained. -/
lemma forLoopM_agree {σ : Type} (P : Nat → σ → Prop) (f : Nat → σ → Option σ)
    (g : Nat → σ → σ) :
    ∀ (n : Nat) (s0 : σ), P 0 s0 →
    (∀ i s, i < n → P i s → f i s = some (g i s) ∧ P (i + 1) (g i s)) →
    forLoopM f n s0 = some (forLoop g n s0) ∧ P n (forLoop g n s0) := by
  intro n
  induction n with
  | zero =>
    intro s0 h0 _
    exact ⟨rfl, h0⟩
  | succ n ih =>
    intro s0 h0 hstep
    obtain ⟨heq, hP⟩ := ih s0 h0 (fun i s hi => hstep i s (by omega))
    have hm : forLoopM f (n + 1) s0 = f n (forLoop g n s0) := by
      show (match forLoopM f n s0 with | none => none | some s' => f n s') = _
      rw [heq]
    obtain ⟨hf, hP'⟩ := hstep n (forLoop g n s0) (by omega) hP
    rw [hm, hf]
    exact ⟨rfl, hP'⟩

/-- A line pass never changes the length of the pixel buffer. -/
lemma lineStateAt_buf_length (buf : List Nat) (idx : Nat → Nat)
    (n radius mul_sum shr_sum : Nat) :
    ∀ x, (lineStateAt buf idx n radius mul_sum shr_sum x).buf.length = buf.length := by
  intro x
  induction x with
  | zero =>
    obtain ⟨h1buf, _, _, _, _, _, _, _⟩ := init1_loop_spec idx
      ⟨buf, List.replicate (2 * radius + 1) 0, 0, 0, 0, radius, min radius (n - 1)⟩
      (radius + 1) (by simp; omega)
    obtain ⟨_, h2buf, _, _, _, _, _, _, _⟩ := init2_loop_spec idx (n - 1) radius
      (forLoop (init1Body idx)
        (radius + 1) ⟨buf, List.replicate (2 * radius + 1) 0, 0, 0, 0, radius,
          min radius (n - 1)⟩)
      (by obtain ⟨_, _, _, _, h, _, _, _⟩ := init1_loop_spec idx
            ⟨buf, List.replicate (2 * radius + 1) 0, 0, 0, 0, radius, min radius (n - 1)⟩
            (radius + 1) (by simp; omega)
          rw [h]
          simp)
      radius (le_refl _)
    show (lineInit2 idx (n - 1) radius (lineInit1 idx radius _)).buf.length = buf.length
    rw [show lineInit2 idx (n - 1) radius (lineInit1 idx radius
        ⟨buf, List.replicate (2 * radius + 1) 0, 0, 0, 0, radius, min radius (n - 1)⟩)
      = (forLoop (init2Body idx (n - 1) radius) radius
          (forLoop (init1Body idx) (radius + 1)
            ⟨buf, List.replicate (2 * radius + 1) 0, 0, 0, 0, radius,
              min radius (n - 1)⟩, 0)).1 from rfl, h2buf, h1buf]
  | succ x ih =>
    have hstep : lineStateAt buf idx n radius mul_sum shr_sum (x + 1)
        = lineStep idx (n - 1) radius mul_sum shr_sum x
            (lineStateAt buf idx n radius mul_sum shr_sum x) := rfl
    rw [hstep]
    show ((lineStateAt buf idx n radius mul_sum shr_sum x).buf.set _ _).length = buf.length
    rw [List.length_set]
    exact ih

/-- A line pass never changes the length of the pixel buffer. -/
lemma linePass_length (buf : List Nat) (idx : Nat → Nat) (n radius mul_sum shr_sum : Nat) :
    (linePass buf idx n radius mul_sum shr_sum).length = buf.length :=
  lineStateAt_buf_length buf idx n radius mul_sum shr_sum n

/-- Under the index preconditions, the checked line pass succeeds and agrees
with the unchecked line pass: no access is out of bounds. -/
lemma linePassChecked_agree (buf : List Nat) (idx : Nat → Nat)
    (n radius mul_sum shr_sum : Nat) (hn : 1 ≤ n)
    (hidx : ∀ i, i ≤ n - 1 → idx i < buf.length) :
    linePassChecked buf idx n radius mul_sum shr_sum
      = some (linePass buf idx n radius mul_sum shr_sum) := by
  set st0 : LineState :=
    ⟨buf, List.replicate (2 * radius + 1) 0, 0, 0, 0, radius, min radius (n - 1)⟩ with hst0
  obtain ⟨e1, Q1⟩ := forLoopM_agree
    (fun _ s => s.buf = buf ∧ s.stack.length = 2 * radius + 1 ∧ s.sp = radius ∧
      s.xp = min radius (n - 1))
    (init1BodyChecked idx) (init1Body idx) (radius + 1) st0
    ⟨rfl, by simp [hst0], rfl, rfl⟩
    (fun i s hi hP => by
      obtain ⟨hb, hs, hsp, hxp⟩ := hP
      refine ⟨?_, hb, ?_, hsp, hxp⟩
      · unfold init1BodyChecked
        rw [if_pos ⟨by rw [hb]; exact hidx 0 (by omega), by rw [hs]; omega⟩]
      · show (s.stack.set i _).length = 2 * radius + 1
        rw [List.length_set]
        exact hs)
  obtain ⟨e2, Q2⟩ := forLoopM_agree
    (fun i0 sp => sp.1.buf = buf ∧ sp.1.stack.length = 2 * radius + 1 ∧
      sp.1.sp = radius ∧ sp.1.xp = min radius (n - 1) ∧ sp.2 = min i0 (n - 1))
    (init2BodyChecked idx (n - 1) radius) (init2Body idx (n - 1) radius) radius
    (forLoop (init1Body idx) (radius + 1) st0, 0)
    ⟨Q1.1, Q1.2.1, Q1.2.2.1, Q1.2.2.2, by simp⟩
    (fun i0 sp hi0 hP => by
      obtain ⟨hb, hs, hsp, hxp, hp2⟩ := hP
      have hpmin : (if i0 + 1 ≤ n - 1 then sp.2 + 1 else sp.2) = min (i0 + 1) (n - 1) := by
        rw [hp2]
        split <;> omega
      refine ⟨?_, hb, ?_, hsp, hxp, ?_⟩
      · unfold init2BodyChecked
        rw [if_pos ⟨by rw [hpmin, hb]; exact hidx _ (by omega), by rw [hs]; omega⟩]
      · show (sp.1.stack.set (i0 + 1 + radius) _).length = 2 * radius + 1
        rw [List.length_set]
        exact hs
      · exact hpmin)
  obtain ⟨e3, _⟩ := forLoopM_agree
    (fun _ st => st.buf.length = buf.length ∧ st.stack.length = 2 * radius + 1 ∧
      st.xp ≤ n - 1 ∧ st.sp < 2 * radius + 1)
    (lineStepChecked idx (n - 1) radius mul_sum shr_sum)
    (lineStep idx (n - 1) radius mul_sum shr_sum) n
    (forLoop (init2Body idx (n - 1) radius) radius
      (forLoop (init1Body idx) (radius + 1) st0, 0)).1
    ⟨by rw [Q2.1], Q2.2.1, by rw [Q2.2.2.2.1]; omega, by rw [Q2.2.2.1]; omega⟩
    (fun x st hx hP => by
      obtain ⟨hb, hs, hxp, hsp⟩ := hP
      have hxp1 : (if st.xp < n - 1 then st.xp + 1 else st.xp) ≤ n - 1 := by
        split <;> omega
      refine ⟨?_, ?_, ?_, ?_, ?_⟩
      · unfold lineStepChecked
        rw [if_pos ⟨by rw [hb]; exact hidx x (by omega),
          by rw [hs]; split <;> omega,
          by rw [hb]; exact hidx _ hxp1,
          by rw [hs]; split <;> omega⟩]
      · show ((st.buf.set _ _).length = buf.length)
        rw [List.length_set]
        exact hb
      · show ((st.stack.set _ _).length = 2 * radius + 1)
        rw [List.length_set]
        exact hs
      · exact hxp1
      · show (if 2 * radius + 1 ≤ st.sp + 1 then 0 else st.sp + 1) < 2 * radius + 1
        split <;> omega)
  show (match forLoopM (init1BodyChecked idx) (radius + 1) st0 with
    | none => none
    | some st1 =>
      match forLoopM (init2BodyChecked idx (n - 1) radius) radius (st1, 0) with
      | none => none
      | some st2 =>
        match forLoopM (lineStepChecked idx (n - 1) radius mul_sum shr_sum) n st2.1 with
        | none => none
        | some stF => some stF.buf) = some (linePass buf idx n radius mul_sum shr_sum)
  rw [e1]
  show (match forLoopM (init2BodyChecked idx (n - 1) radius) radius
      (forLoop (init1Body idx) (radius + 1) st0, 0) with
    | none => none
    | some st2 =>
      match forLoopM (lineStepChecked idx (n - 1) radius mul_sum shr_sum) n st2.1 with
      | none => none
      | some stF => some stF.buf) = some (linePass buf idx n radius mul_sum shr_sum)
  rw [e2]
  show (match forLoopM (lineStepChecked idx (n - 1) radius mul_sum shr_sum) n
      (forLoop (init2Body idx (n - 1) radius) radius
        (forLoop (init1Body idx) (radius + 1) st0, 0)).1 with
    | none => none
    | some stF => some stF.buf) = some (linePass buf idx n radius mul_sum shr_sum)
  rw [e3]
  rfl

/-- Step 1 of the checked blur succeeds and agrees with the unchecked one. -/
lemma stackblurChecked1_agree (src : List Nat) (w h radius : Nat)
    (hw : 1 ≤ w) (hh : 1 ≤ h) (hlen : src.length = w * h) :
    stackblurChecked src w h radius 1 = some (stackblur src w h radius 1) := by
  obtain ⟨he, _⟩ := forLoopM_agree (fun _ b => b.length = w * h)
    (fun y buf => linePassChecked buf (fun i => y * w + i) w radius
      (stackblur_mul.getD radius 0) (stackblur_shr.getD radius 0))
    (fun y buf => linePass buf (fun i => y * w + i) w radius
      (stackblur_mul.getD radius 0) (stackblur_shr.getD radius 0))
    h src hlen
    (fun y b hy hP => ⟨linePassChecked_agree b _ w radius _ _ hw
        (fun i hi => by rw [hP]; exact row_lt w h hy (by omega)),
      by show (linePass b (fun i => y * w + i) w radius (stackblur_mul.getD radius 0)
            (stackblur_shr.getD radius 0)).length = w * h
         rw [linePass_length]
         exact hP⟩)
  rw [stackblur_one]
  exact he

/-- Step 2 of the checked blur succeeds and agrees with the unchecked one. -/
lemma stackblurChecked2_agree (src : List Nat) (w h radius : Nat)
    (hw : 1 ≤ w) (hh : 1 ≤ h) (hlen : src.length = w * h) :
    stackblurChecked src w h radius 2 = some (stackblur src w h radius 2) := by
  obtain ⟨he, _⟩ := forLoopM_agree (fun _ b => b.length = w * h)
    (fun x buf => linePassChecked buf (fun i => x + i * w) h radius
      (stackblur_mul.getD radius 0) (stackblur_shr.getD radius 0))
    (fun x buf => linePass buf (fun i => x + i * w) h radius
      (stackblur_mul.getD radius 0) (stackblur_shr.getD radius 0))
    w src hlen
    (fun x b hx hP => ⟨linePassChecked_agree b _ h radius _ _ hh
        (fun i hi => by rw [hP]; exact col_lt w h hx (by omega)),
      by show (linePass b (fun i => x + i * w) h radius (stackblur_mul.getD radius 0)
            (stackblur_shr.getD radius 0)).length = w * h
         rw [linePass_length]
         exact hP⟩)
  rw [stackblur_two]
  exact he

/-- C10: under the preconditions (`width, height ≥ 1`, radius in `[1,254]`,
buffer length `= width*height`), every pixel-buffer read and write of
either pass uses an index in `[0, width*height)` and every circular-stack
access uses an index in `[0, 2*radius+1)`: in the `Option`-valued
embedding, where every access is bounds-checked and any out-of-bounds
access aborts with `none`, both passes — and the two-pass entry point —
succeed and return exactly the unchecked results. -/
theorem C10_all_accesses_in_bounds (src : List Nat) (w h radius : Nat)
    (hw : 1 ≤ w) (hh : 1 ≤ h) (hr1 : 1 ≤ radius) (hr : radius ≤ 254)
    (hlen : src.length = w * h) :
    stackblurChecked src w h radius 1 = some (stackblur src w h radius 1) ∧
    stackblurChecked src w h radius 2 = some (stackblur src w h radius 2) ∧
    javaStackblurChecked src w h radius
      = some (Java_com_jxtras_android_utils_ImageUtils_stackblur src w h radius) := by
  refine ⟨stackblurChecked1_agree src w h radius hw hh hlen,
    stackblurChecked2_agree src w h radius hw hh hlen, ?_⟩
  have hmidlen : (stackblur src w h radius 1).length = w * h :=
    (stackblur1_spec src w h radius hw hh hlen).1
  show (match stackblurChecked src w h radius 1 with
    | none => none
    | some mid => stackblurChecked mid w h radius 2)
    = some (Java_com_jxtras_android_utils_ImageUtils_stackblur src w h radius)
  rw [stackblurChecked1_agree src w h radius hw hh hlen]
  show stackblurChecked (stackblur src w h radius 1) w h radius 2
    = some (Java_com_jxtras_android_utils_ImageUtils_stackblur src w h radius)
  rw [stackblurChecked2_agree (stackblur src w h radius 1) w h radius hw hh hmidlen]
  rfl

theorem C10_witness :
    (1 ≤ 3 ∧ 1 ≤ 2 ∧ 1 ≤ 1 ∧ 1 ≤ 254 ∧ ([0, 0, 255, 0, 0, 0] : List Nat).length = 3 * 2) ∧
    javaStackblurChecked [0, 0, 255, 0, 0, 0] 3 2 1
      = some (Java_com_jxtras_android_utils_ImageUtils_stackblur [0, 0, 255, 0, 0, 0] 3 2 1) :=
  ⟨by decide, (C10_all_accesses_in_bounds [0, 0, 255, 0, 0, 0] 3 2 1 (by decide) (by decide)
    (by decide) (by decide) (by decide)).2.2⟩
